import Mathlib

/-!
# Pinger: a verification development

A shallow embedding of the Go packages `internal/pinger` and `internal/config`.

Conventions of the embedding:

* Go `int` and `time.Duration` values are integers (`Int`); a duration counts
  nanoseconds, so `time.Second` is `1000000000`.  `int` is the 64-bit type:
  `strconv.Atoi` reports its range error, and the products of `config.Load`
  wrap around like `int64`.  In `pingURL` the loop variable and the sleep are
  exact: their wrap-around would take more than nine thousand million
  attempts of one call to reach.
* Go `error` values are `Option`s of an error description; `nil` is `none`.
* The network is an oracle: `net n` tells what the `n`-th iteration of the
  retry loop of `pingURL` meets (numbered from `0`, like the loop variable).
* Effects (logging, sleeping, requests) are recorded in traces.
-/

namespace time

/-- The Go constant `time.Second`, in nanoseconds. -/
def Second : Int := 1000000000

/-- The value an `int64` computation keeps of an exact result: wrap-around modulo 2^64. -/
def int64 (n : Int) : Int :=
  (n + 9223372036854775808) % 18446744073709551616 - 9223372036854775808

end time

namespace zap

/-- Severity of a logged event (`logger.Debug`, `logger.Info`, `logger.Error`). -/
inductive Level where
  | debug
  | info
  | error
deriving DecidableEq, Repr

/-- Error values built by `pingURL` with `fmt.Errorf`; the argument is the text of the wrapped cause. -/
inductive GoError where
  /-- Built by `fmt.Errorf("failed to create request: %w", err)`. -/
  | createRequest (cause : String)
  /-- Built by `fmt.Errorf("request failed: %w", err)`. -/
  | requestFailed (cause : String)
deriving DecidableEq, Repr

/-- A structured field of a log event (`zap.String`, `zap.Bool`, `zap.Int`, `zap.Duration`, `zap.Error`). -/
inductive Field where
  | str (key : String) (val : String)
  | bool (key : String) (val : Bool)
  | int (key : String) (val : Int)
  | duration (key : String) (val : Int)
  | err (e : GoError)
deriving DecidableEq, Repr

/-- The key under which a field is logged; `zap.Error` uses the key "error". -/
def Field.key : Field → String
  | .str k _ => k
  | .bool k _ => k
  | .int k _ => k
  | .duration k _ => k
  | .err _ => "error"

/-- One event handed to the logger: level, message, fields in order. -/
structure Entry where
  level : Level
  msg : String
  fields : List Field
deriving DecidableEq, Repr

/-- An entry carries a field with the given key. -/
def Entry.hasKey (e : Entry) (k : String) : Prop := ∃ f ∈ e.fields, f.key = k

instance (e : Entry) (k : String) : Decidable (e.hasKey k) := by
  unfold Entry.hasKey; infer_instance

end zap

namespace pinger

open zap (GoError Field Entry Level)

/-- The Go struct `Pinger` (the logger and the HTTP client are effects, kept in traces and in the network oracle). -/
structure Pinger where
  urls : List String
  interval : Int
  timeout : Int
  maxRetries : Int
  logResponseBody : Bool
deriving DecidableEq, Repr

/-- The Go struct `PingResult`; `Error = none` is the nil error, `StatusCode = 0` the zero value. -/
structure PingResult where
  URL : String
  StatusCode : Int
  ResponseTime : Int
  Success : Bool
  Error : Option GoError
  Body : String
deriving DecidableEq, Repr

/-- The Go constructor `New`. -/
def New (urls : List String) (interval timeout : Int) (maxRetries : Int)
    (logResponseBody : Bool) : Pinger :=
  { urls := urls, interval := interval, timeout := timeout,
    maxRetries := maxRetries, logResponseBody := logResponseBody }

/-- What one iteration of the retry loop meets. -/
inductive Attempt where
  /-- The call `http.NewRequest` returns an error. -/
  | newRequestErr (cause : String)
  /-- The call `p.client.Do(req)` returns an error. -/
  | doErr (cause : String)
  /-- The call `p.client.Do(req)` returns a response: its status code, the time
  measured by `time.Since(start)`, and the bytes `io.ReadAll(resp.Body)` yields
  (its error is discarded by the code). -/
  | response (status : Int) (elapsed : Int) (content : String)
deriving DecidableEq, Repr

/-- An attempt ends without a response. -/
def Attempt.failed : Attempt → Bool
  | .newRequestErr _ => true
  | .doErr _ => true
  | .response _ _ _ => false

/-- The network as seen by one call of `pingURL`: the outcome of iteration `n`. -/
abbrev Net := Nat → Attempt

/-- Effects of `pingURL`, in the order they happen. -/
inductive Effect where
  /-- The debug event "Retrying request" with fields url and attempt. -/
  | log (e : Entry)
  /-- The call `time.Sleep(d)`. -/
  | sleep (d : Int)
  /-- The call `http.NewRequest(http.MethodGet, url, nil)`: the start of an attempt. -/
  | newRequest (url : String)
  /-- The call `p.client.Do(req)`, with the User-Agent header set on `req`. -/
  | clientDo (url : String) (userAgent : String)
  /-- The call `io.ReadAll(resp.Body)`. -/
  | readAll
  /-- The deferred `resp.Body.Close()`, run when `pingURL` returns. -/
  | bodyClose
deriving DecidableEq, Repr

/-- The debug event logged before a retry. -/
def retryEntry (url : String) (attempt : Int) : Entry :=
  { level := .debug, msg := "Retrying request",
    fields := [.str "url" url, .int "attempt" attempt] }

/-- Head of a loop iteration: `if attempt > 0 { p.logger.Debug(...); time.Sleep(time.Second * time.Duration(attempt)) }`. -/
def retryEffects (url : String) (attempt : Nat) : List Effect :=
  if attempt > 0 then
    [.log (retryEntry url attempt), .sleep (time.Second * (attempt : Int))]
  else []

/-- The loop of `pingURL`, `for attempt := 0; attempt <= p.maxRetries; attempt++`.
`remaining` is the number of iterations the loop condition still admits,
`attempt` the loop variable, `lastErr` the variable of that name.  The result
is the returned `PingResult` with the effects performed. -/
def pingLoop (p : Pinger) (net : Net) (url : String) :
    (remaining : Nat) → (attempt : Nat) → (lastErr : Option GoError) → PingResult × List Effect
  | 0, _, lastErr =>
    ({ URL := url, StatusCode := 0, ResponseTime := 0, Success := false,
       Error := lastErr, Body := "" }, [])
  | remaining + 1, attempt, _ =>
    match net attempt with
    | .newRequestErr cause =>
      let rest := pingLoop p net url remaining (attempt + 1) (some (.createRequest cause))
      (rest.1, retryEffects url attempt ++ [.newRequest url] ++ rest.2)
    | .doErr cause =>
      let rest := pingLoop p net url remaining (attempt + 1) (some (.requestFailed cause))
      (rest.1, retryEffects url attempt ++ [.newRequest url, .clientDo url "Pinger/1.0"] ++ rest.2)
    | .response status elapsed content =>
      ({ URL := url, StatusCode := status, ResponseTime := elapsed,
         Success := decide (status ≥ 200 ∧ status < 300),
         Error := none,
         Body := if p.logResponseBody then content else "" },
       retryEffects url attempt ++ [.newRequest url, .clientDo url "Pinger/1.0"]
         ++ (if p.logResponseBody then [.readAll] else []) ++ [.bodyClose])

/-- The method `pingURL`: the loop started at `attempt = 0` with `lastErr = nil`;
the condition `attempt <= p.maxRetries` admits `maxRetries + 1` iterations
(none when `maxRetries` is negative). -/
def Pinger.pingURL (p : Pinger) (net : Net) (url : String) : PingResult × List Effect :=
  pingLoop p net url (p.maxRetries + 1).toNat 0 none

/-- Number of attempts in a trace: the calls of `http.NewRequest`. -/
def attempts (tr : List Effect) : Nat :=
  (tr.filter (fun e => match e with | .newRequest _ => true | _ => false)).length

/-- The sleeps of a trace, in order. -/
def sleeps : List Effect → List Int
  | [] => []
  | .sleep d :: tr => d :: sleeps tr
  | _ :: tr => sleeps tr

/-- The method `logResult`; the result lists the events handed to the logger. -/
def Pinger.logResult (p : Pinger) (result : PingResult) : List Entry :=
  let fields : List Field := [.str "url" result.URL, .bool "success" result.Success]
  if result.Success then
    let fields := fields ++ [.int "status_code" result.StatusCode,
                             .duration "response_time" result.ResponseTime]
    let fields := if p.logResponseBody ∧ result.Body ≠ "" then
        fields ++ [.str "body" result.Body] else fields
    [{ level := .info, msg := "Ping successful", fields := fields }]
  else
    let fields := match result.Error with
      | some e => fields ++ [.err e]
      | none => fields
    let fields := if result.StatusCode > 0 then
        fields ++ [.int "status_code" result.StatusCode,
                   .duration "response_time" result.ResponseTime] else fields
    [{ level := .error, msg := "Ping failed", fields := fields }]

/-- Where the control of `Start` is. -/
inductive Phase where
  /-- Inside a call `p.pingAll()` (line 58 or line 66). -/
  | inPingAll
  /-- Blocked in the `select` of the loop. -/
  | waiting
  /-- Returned, after `case <-ctx.Done()`. -/
  | stopped
  /-- Ended by the panic of `time.NewTicker`, which panics when its argument is not positive. -/
  | panicked
deriving DecidableEq, Repr

/-- What `Start` does, in order. -/
inductive Action where
  | log (e : Entry)
  | newTicker (d : Int)
  | pingAllCall
  | pingAllReturn
  /-- The deferred `ticker.Stop()`. -/
  | tickerStop
deriving DecidableEq, Repr

/-- What happens around `Start`, and which ready case its `select` takes. -/
inductive Event where
  /-- The ticker fires: a tick is put in `ticker.C` (capacity 1), or dropped when one is there already. -/
  | tick
  /-- The context is cancelled: `ctx.Done()` is closed. -/
  | cancel
  /-- The running call of `pingAll` returns. -/
  | pingAllReturns
  /-- The `select` takes `case <-ticker.C`. -/
  | selectTick
  /-- The `select` takes `case <-ctx.Done()`. -/
  | selectDone
deriving DecidableEq, Repr

/-- State of a run of `Start`. -/
structure StartState where
  phase : Phase
  tickBuffered : Bool
  cancelled : Bool
  trace : List Action
deriving DecidableEq, Repr

/-- The info event logged first by `Start`. -/
def startedEntry (p : Pinger) : Entry :=
  { level := .info, msg := "Pinger started",
    fields := [.int "url_count" p.urls.length, .duration "interval" p.interval,
               .duration "timeout" p.timeout] }

/-- The info event logged when the cancellation is observed. -/
def stoppedEntry : Entry := { level := .info, msg := "Pinger stopped", fields := [] }

/-- Lines 48 to 58 of `Start`: the info event, `time.NewTicker(p.interval)`
(a panic unless `p.interval > 0`), then the first call of `pingAll`. -/
def Pinger.startBegin (p : Pinger) : StartState :=
  if p.interval ≤ 0 then
    { phase := .panicked, tickBuffered := false, cancelled := false,
      trace := [.log (startedEntry p)] }
  else
    { phase := .inPingAll, tickBuffered := false, cancelled := false,
      trace := [.log (startedEntry p), .newTicker p.interval, .pingAllCall] }

/-- One event of a run of `Start`.  `pingAll` is called synchronously, so the
`select` is reached only in phase `waiting`; an event that cannot happen in the
current state leaves it unchanged. -/
def startStep (s : StartState) : Event → StartState
  | .tick =>
    match s.phase with
    | .inPingAll => { s with tickBuffered := true }
    | .waiting => { s with tickBuffered := true }
    | _ => s
  | .cancel => { s with cancelled := true }
  | .pingAllReturns =>
    if s.phase = .inPingAll then
      { s with phase := .waiting, trace := s.trace ++ [.pingAllReturn] }
    else s
  | .selectTick =>
    if s.phase = .waiting ∧ s.tickBuffered = true then
      { s with phase := .inPingAll, tickBuffered := false, trace := s.trace ++ [.pingAllCall] }
    else s
  | .selectDone =>
    if s.phase = .waiting ∧ s.cancelled = true then
      { s with phase := .stopped, trace := s.trace ++ [.log stoppedEntry, .tickerStop] }
    else s

/-- An event can happen in a state: the ticker fires while it runs, `pingAll`
returns while it is running, and the `select` takes a case only when `Start`
waits in it and the channel of the case is ready. -/
def startEnabled (s : StartState) : Event → Bool
  | .tick => decide (s.phase = .inPingAll ∨ s.phase = .waiting)
  | .cancel => true
  | .pingAllReturns => decide (s.phase = .inPingAll)
  | .selectTick => decide (s.phase = .waiting) && s.tickBuffered
  | .selectDone => decide (s.phase = .waiting) && s.cancelled

/-- Every event of the sequence can happen when its turn comes. -/
def StartState.realizable : StartState → List Event → Bool
  | _, [] => true
  | s, ev :: evs => startEnabled s ev && (startStep s ev).realizable evs

/-- What `Start` does in answer to an event that happens: nothing on a tick or
a cancellation (they only make a case of the `select` ready), the return from
`pingAll`, the next call of `pingAll` when the `select` takes a tick, and the
"Pinger stopped" event with the deferred `ticker.Stop()` when it takes the
cancellation. -/
def Event.actions : Event → List Action
  | .tick => []
  | .cancel => []
  | .pingAllReturns => [.pingAllReturn]
  | .selectTick => [.pingAllCall]
  | .selectDone => [.log stoppedEntry, .tickerStop]

/-- The method `Start`, run against a sequence of events. -/
def Pinger.Start (p : Pinger) (evs : List Event) : StartState :=
  evs.foldl startStep p.startBegin

/-- Number of cycles begun: the calls of `pingAll`. -/
def cyclesBegun (tr : List Action) : Nat := tr.count .pingAllCall

/-- Number of cycles ended: the returns of `pingAll`. -/
def cyclesEnded (tr : List Action) : Nat := tr.count .pingAllReturn

/-- Cycles never overlap: in every state of a run, the cycles begun are the
cycles ended, plus the one running when control is inside `pingAll`. -/
def StartState.serial (s : StartState) : Prop :=
  cyclesBegun s.trace = cyclesEnded s.trace + (if s.phase = .inPingAll then 1 else 0)

/-- Events of one tick that `Start` receives: the tick fires while the cycle
is still running (`early`) or while `Start` waits, and the `select` takes it. -/
def tickRound (early : Bool) : List Event :=
  if early then [.tick, .pingAllReturns, .selectTick]
  else [.pingAllReturns, .tick, .selectTick]

/-- Events of a cancellation observed at the wait point: the cancellation
arrives while the cycle is still running (`early`) or while `Start` waits. -/
def cancelRound (early : Bool) : List Event :=
  if early then [.cancel, .pingAllReturns, .selectDone]
  else [.pingAllReturns, .cancel, .selectDone]

/-- A run with one received tick per entry of `ticks`, then a cancellation. -/
def ticksThenCancel (ticks : List Bool) (earlyCancel : Bool) : List Event :=
  ticks.flatMap tickRound ++ cancelRound earlyCancel

end pinger

/-! ### The cycle `pingAll` -/

namespace pinger

open zap (GoError Field Entry Level)

/-- State of the goroutine `go func() { wg.Wait(); close(results) }()`. -/
inductive Closer where
  | notStarted
  | waiting
  | finished
deriving DecidableEq, Repr

/-- State of one call of `pingAll`, shared by its goroutines. -/
structure CycleState where
  /-- Entries of `p.urls` that the loop `for _, url := range p.urls` has not reached. -/
  toLaunch : List String
  /-- Arguments of the launched goroutines that have not sent their result yet. -/
  running : List String
  /-- Number of goroutines that have sent their result and not yet run the deferred `wg.Done()`. -/
  sent : Nat
  /-- Counter of the wait group `wg`. -/
  wg : Nat
  closer : Closer
  /-- Content of the channel `results`, oldest first. -/
  chan : List PingResult
  /-- Capacity of `results`: `len(p.urls)`. -/
  cap : Nat
  /-- The channel `results` is closed. -/
  closed : Bool
  /-- Arguments of the calls of `pingURL` made so far. -/
  calls : List String
  /-- Results returned by these calls of `pingURL`. -/
  outcomes : List PingResult
  /-- Results passed to `logResult` so far. -/
  logged : List PingResult
  /-- Events emitted by these calls of `logResult`. -/
  entries : List Entry
  /-- A send on the closed channel happened (a panic in Go). -/
  panicked : Bool
  /-- The call `pingAll` has returned. -/
  returned : Bool

/-- The moves of the goroutines of one cycle, as chosen by the Go scheduler. -/
inductive Move where
  /-- The main goroutine runs one iteration of the launching loop: `wg.Add(1); go func(u string) {...}(url)`. -/
  | launch
  /-- A launched goroutine with argument `u` runs `result := p.pingURL(u); results <- result` against the network `net`. -/
  | ping (u : String) (net : Net)
  /-- A goroutine that has sent runs its deferred `wg.Done()`. -/
  | done
  /-- The main goroutine, past the loop, starts the closing goroutine and enters `for result := range results`. -/
  | startCloser
  /-- The closing goroutine passes `wg.Wait()` and closes `results`. -/
  | close
  /-- The main goroutine receives a result and calls `p.logResult(result)`. -/
  | recv
  /-- The main goroutine finds `results` closed and empty: the range loop ends and `pingAll` returns. -/
  | ret

/-- State at the entry of `pingAll`: `results := make(chan PingResult, len(p.urls))`. -/
def Pinger.cycleBegin (p : Pinger) : CycleState :=
  { toLaunch := p.urls, running := [], sent := 0, wg := 0, closer := .notStarted,
    chan := [], cap := p.urls.length, closed := false, calls := [], outcomes := [], logged := [],
    entries := [], panicked := false, returned := false }

/-- A move can be made in a state; a send blocks while the channel is full. -/
def CycleState.enabled (s : CycleState) : Move → Bool
  | .launch => !s.panicked && !s.toLaunch.isEmpty
  | .ping u _ => !s.panicked && decide (u ∈ s.running) && (s.closed || decide (s.chan.length < s.cap))
  | .done => !s.panicked && decide (0 < s.sent)
  | .startCloser => !s.panicked && s.toLaunch.isEmpty && decide (s.closer = .notStarted)
  | .close => !s.panicked && decide (s.closer = .waiting) && decide (s.wg = 0)
  | .recv => !s.panicked && !s.returned && decide (s.closer ≠ .notStarted) && !s.chan.isEmpty
  | .ret => !s.panicked && !s.returned && decide (s.closer ≠ .notStarted) && s.chan.isEmpty && s.closed

/-- The effect of a move that can be made. -/
def Pinger.cycleMove (p : Pinger) (s : CycleState) : Move → CycleState
  | .launch =>
    match s.toLaunch with
    | u :: rest => { s with toLaunch := rest, wg := s.wg + 1, running := u :: s.running }
    | [] => s
  | .ping u net =>
    if s.closed then
      { s with running := s.running.erase u, calls := s.calls ++ [u],
               outcomes := s.outcomes ++ [(p.pingURL net u).1], panicked := true }
    else
      { s with running := s.running.erase u, calls := s.calls ++ [u],
               outcomes := s.outcomes ++ [(p.pingURL net u).1],
               chan := s.chan ++ [(p.pingURL net u).1], sent := s.sent + 1 }
  | .done => { s with sent := s.sent - 1, wg := s.wg - 1 }
  | .startCloser => { s with closer := .waiting }
  | .close => { s with closer := .finished, closed := true }
  | .recv =>
    match s.chan with
    | r :: rest => { s with chan := rest, logged := s.logged ++ [r],
                            entries := s.entries ++ p.logResult r }
    | [] => s
  | .ret => { s with returned := true }

/-- One scheduling decision: the move is made if it can be, else nothing happens. -/
def Pinger.cycleStep (p : Pinger) (s : CycleState) (m : Move) : CycleState :=
  if s.enabled m then p.cycleMove s m else s

/-- The method `pingAll`, run under a sequence of scheduling decisions. -/
def Pinger.pingAll (p : Pinger) (sched : List Move) : CycleState :=
  sched.foldl p.cycleStep p.cycleBegin

/-- Every scheduling decision of the sequence is a move that can be made when its turn comes. -/
def Pinger.realizable (p : Pinger) : CycleState → List Move → Bool
  | _, [] => true
  | s, m :: ms => s.enabled m && p.realizable (p.cycleStep s m) ms

/-- The calls of `pingURL` that a scheduling asks for, in order: the argument
and the network met by each pinging goroutine. -/
def pingCalls : List Move → List (String × Net)
  | [] => []
  | .ping u net :: ms => (u, net) :: pingCalls ms
  | _ :: ms => pingCalls ms

/-- The result of the call `p.pingURL(u)` against the network `net`. -/
def Pinger.outcome (p : Pinger) (c : String × Net) : PingResult := (p.pingURL c.2 c.1).1

/-- A scheduling in which the checks complete in the given order: all
goroutines are launched, then each check in turn completes, sends its result
and is logged, then the channel is closed and `pingAll` returns. -/
def completionSchedule (p : Pinger) (order : List (String × Net)) : List Move :=
  List.replicate p.urls.length Move.launch ++ [Move.startCloser]
    ++ order.flatMap (fun c => [Move.ping c.1 c.2, Move.done, Move.recv])
    ++ [Move.close, Move.ret]

/-- The URLs of a list of results. -/
def urlsOf (rs : List PingResult) : List String := rs.map (fun r => r.URL)

/-- What holds in every state of a call of `pingAll`. -/
structure CycleInv (p : Pinger) (s : CycleState) : Prop where
  count : ∀ x, s.toLaunch.count x + s.running.count x + (urlsOf s.outcomes).count x
            = p.urls.count x
  len : s.toLaunch.length + s.running.length + s.outcomes.length = p.urls.length
  outcomes : s.outcomes = s.logged ++ s.chan
  calls : s.calls = urlsOf s.outcomes
  entries : s.entries = s.logged.flatMap p.logResult
  wg : s.wg = s.running.length + s.sent
  cap : s.cap = p.urls.length
  notPanicked : s.panicked = false
  closerLaunch : s.closer ≠ .notStarted → s.toLaunch = []
  closedIff : s.closed = true ↔ s.closer = .finished
  closedWg : s.closed = true → s.wg = 0
  ret : s.returned = true → s.closed = true ∧ s.chan = []

/-- Number of moves a state is away from the return of `pingAll`. -/
def CycleState.togo (s : CycleState) : Nat :=
  4 * s.toLaunch.length + 3 * s.running.length + s.sent + s.chan.length
    + (match s.closer with | .notStarted => 2 | .waiting => 1 | .finished => 0)
    + (if s.returned then 0 else 1)

end pinger

/-! ### The settings loader `config.Load` -/

namespace strings

/-- The Go predicate `unicode.IsSpace`, used by `strings.TrimSpace`. -/
def isSpace (c : Char) : Bool :=
  c = '\t' || c = '\n' || c = '\x0b' || c = '\x0c' || c = '\r' || c = ' '
    || c.val = 0x85 || c.val = 0xA0 || c.val = 0x1680
    || (0x2000 ≤ c.val && c.val ≤ 0x200A)
    || c.val = 0x2028 || c.val = 0x2029 || c.val = 0x202F || c.val = 0x205F
    || c.val = 0x3000

/-- The Go function `strings.TrimSpace` on the characters of a string. -/
def trimSpaceChars (cs : List Char) : List Char :=
  ((cs.dropWhile isSpace).reverse.dropWhile isSpace).reverse

/-- The Go function `strings.TrimSpace`. -/
def TrimSpace (s : String) : String := String.mk (trimSpaceChars s.data)

/-- The Go function `strings.Split(s, sep)` for a one-character separator, on
the characters of a string: the pieces between the separators, in order. -/
def splitChars (sep : Char) : List Char → List (List Char)
  | [] => [[]]
  | c :: cs =>
    if c = sep then [] :: splitChars sep cs
    else
      match splitChars sep cs with
      | piece :: pieces => (c :: piece) :: pieces
      | [] => [[c]]

/-- The Go function `strings.Split(s, sep)` for a one-character separator. -/
def Split (s : String) (sep : Char) : List String :=
  (splitChars sep s.data).map String.mk

end strings

namespace strconv

/-- Value of a decimal digit, if the character is one. -/
def digit (c : Char) : Option Nat :=
  if '0' ≤ c ∧ c ≤ '9' then some (c.toNat - '0'.toNat) else none

/-- Decimal value of a digit string read after `n`; `none` at the first character that is no digit. -/
def digits : List Char → Nat → Option Nat
  | [], n => some n
  | c :: cs, n =>
    match digit c with
    | some d => digits cs (n * 10 + d)
    | none => none

/-- A value fits the 64-bit `int`. -/
def inRange (n : Int) : Bool :=
  decide (-9223372036854775808 ≤ n ∧ n ≤ 9223372036854775807)

/-- The Go function `strconv.Atoi`: an optional sign and at least one decimal
digit; `none` for its errors, the syntax error and the range error of a value
that does not fit the 64-bit `int`. -/
def Atoi (s : String) : Option Int :=
  let parsed : Option Int :=
    match s.data with
    | [] => none
    | '-' :: ds => if ds.isEmpty then none else (digits ds 0).map (fun n => -(n : Int))
    | '+' :: ds => if ds.isEmpty then none else (digits ds 0).map (fun n => (n : Int))
    | ds => (digits ds 0).map (fun n => (n : Int))
  match parsed with
  | some n => if inRange n then some n else none
  | none => none

/-- The Go function `strconv.ParseBool`, `none` for its error. -/
def ParseBool (s : String) : Option Bool :=
  if s = "1" ∨ s = "t" ∨ s = "T" ∨ s = "TRUE" ∨ s = "true" ∨ s = "True" then some true
  else if s = "0" ∨ s = "f" ∨ s = "F" ∨ s = "FALSE" ∨ s = "false" ∨ s = "False" then some false
  else none

end strconv

namespace config

/-- The Go struct `Config`. -/
structure Config where
  PingURLs : List String
  PingInterval : Int
  RequestTimeout : Int
  MaxRetries : Int
  LogLevel : String
  LogResponseBody : Bool
deriving DecidableEq, Repr

/-- What `Load` reads: the error of `godotenv.Load()`, if any, and the process
environment after that call, as `os.Getenv` returns it ("" for an unset variable). -/
structure Env where
  dotenvErr : Option String
  getenv : String → String

/-- The errors `Load` returns. -/
inductive LoadError where
  | dotenv (cause : String)
  | urlsRequired
  | noValidURLs
  | invalidInterval
  | invalidTimeout
  | invalidRetries
deriving DecidableEq, Repr

deriving instance DecidableEq for Except

/-- The Go function `getEnvOrDefault`. -/
def getEnvOrDefault (env : Env) (key defaultValue : String) : String :=
  if env.getenv key ≠ "" then env.getenv key else defaultValue

/-- The loop of `Load` over the pieces of `PING_URLS`: each piece is trimmed
and appended to `cleanURLs` unless it is empty. -/
def cleanURLs (urls : List String) : List String :=
  urls.foldl (fun clean url =>
    let trimmed := strings.TrimSpace url
    if trimmed ≠ "" then clean ++ [trimmed] else clean) []

/-- The Go function `Load`. -/
def Load (env : Env) : Except LoadError Config :=
  match env.dotenvErr with
  | some cause => .error (.dotenv cause)
  | none =>
    let urlsStr := env.getenv "PING_URLS"
    if urlsStr = "" then .error .urlsRequired
    else
      let urls := strings.Split urlsStr ','
      let clean := cleanURLs urls
      if clean.length = 0 then .error .noValidURLs
      else
        match strconv.Atoi (getEnvOrDefault env "PING_INTERVAL" "60") with
        | none => .error .invalidInterval
        | some intervalSec =>
          match strconv.Atoi (getEnvOrDefault env "REQUEST_TIMEOUT" "10") with
          | none => .error .invalidTimeout
          | some timeoutSec =>
            match strconv.Atoi (getEnvOrDefault env "MAX_RETRIES" "3") with
            | none => .error .invalidRetries
            | some maxRetries =>
              let logLevel := getEnvOrDefault env "LOG_LEVEL" "info"
              let logBody :=
                match strconv.ParseBool (getEnvOrDefault env "LOG_RESPONSE_BODY" "false") with
                | some b => b
                | none => false
              .ok { PingURLs := clean,
                    PingInterval := time.int64 (intervalSec * time.Second),
                    RequestTimeout := time.int64 (timeoutSec * time.Second),
                    MaxRetries := maxRetries,
                    LogLevel := logLevel,
                    LogResponseBody := logBody }

/-- The URL list in the words of the specification: the comma-separated entries
of `PING_URLS`, whitespace-trimmed, empty entries dropped, order kept. -/
def specURLs (urlsStr : String) : List String :=
  ((strings.Split urlsStr ',').map strings.TrimSpace).filter (fun u => u ≠ "")

end config

namespace cmd

/-- The call `pinger.New(cfg.PingURLs, cfg.PingInterval, cfg.RequestTimeout,
cfg.MaxRetries, cfg.LogResponseBody, log)` of `run` in `cmd/pinger/main.go`. -/
def newPinger (cfg : config.Config) : pinger.Pinger :=
  pinger.New cfg.PingURLs cfg.PingInterval cfg.RequestTimeout cfg.MaxRetries cfg.LogResponseBody

end cmd

/-! ### Concrete settings used in the examples -/

namespace fixtures

/-- An environment with two targets and `MAX_RETRIES=-1`. -/
def negativeRetries : config.Env :=
  { dotenvErr := none,
    getenv := fun k =>
      if k = "PING_URLS" then "http://a/ok,http://b/fail"
      else if k = "MAX_RETRIES" then "-1"
      else "" }

/-- An environment with two targets and `PING_INTERVAL=0`. -/
def zeroInterval : config.Env :=
  { dotenvErr := none,
    getenv := fun k =>
      if k = "PING_URLS" then "http://a/ok,http://b/fail"
      else if k = "PING_INTERVAL" then "0"
      else "" }

/-- An environment that sets only `PING_URLS`, with blanks and empty entries. -/
def onlyURLs : config.Env :=
  { dotenvErr := none,
    getenv := fun k => if k = "PING_URLS" then " http://a/ok , ,http://b/fail,," else "" }

/-- A pinger with the default settings, two targets and two retries. -/
def twoTargets : pinger.Pinger :=
  pinger.New ["http://a/ok", "http://b/fail"] (60 * time.Second) (1 * time.Second) 2 false

/-- A network on which every request is answered with status 200. -/
def allOK : pinger.Net := fun _ => .response 200 5 "pong"

/-- A network on which every connection is refused. -/
def allRefused : pinger.Net := fun _ => .doErr "connection refused"

/-- A scheduling of one cycle of `twoTargets` in which the check of the second
target completes first. -/
def secondFirst : List pinger.Move :=
  [.launch, .launch, .startCloser, .ping "http://b/fail" allRefused, .recv,
   .ping "http://a/ok" allOK, .done, .done, .close, .recv, .ret]

end fixtures

/-! ## The retry loop of `pingURL` -/

namespace pinger

open zap (GoError Field Entry Level)

theorem attempts_append (a b : List Effect) : attempts (a ++ b) = attempts a + attempts b := by
  simp [attempts, List.filter_append]

theorem sleeps_append (a b : List Effect) : sleeps (a ++ b) = sleeps a ++ sleeps b := by
  induction a with
  | nil => rfl
  | cons e a ih => cases e <;> simp [sleeps, ih]

theorem attempts_newRequest (url : String) (t : List Effect) :
    attempts (.newRequest url :: t) = attempts t + 1 := by
  simp [attempts]

theorem attempts_clientDo (url ua : String) (t : List Effect) :
    attempts (.clientDo url ua :: t) = attempts t := by
  simp [attempts]

theorem attempts_readAll (t : List Effect) : attempts (.readAll :: t) = attempts t := by
  simp [attempts]

theorem attempts_bodyClose (t : List Effect) : attempts (.bodyClose :: t) = attempts t := by
  simp [attempts]

theorem attempts_nil : attempts [] = 0 := rfl

theorem attempts_retryEffects (url : String) (a : Nat) : attempts (retryEffects url a) = 0 := by
  unfold retryEffects; split <;> simp [attempts]

theorem sleeps_retryEffects (url : String) (a : Nat) :
    sleeps (retryEffects url a) = if a > 0 then [time.Second * (a : Int)] else [] := by
  unfold retryEffects; split <;> simp [sleeps]

/-- When iterations `a .. a+m-1` fail and iteration `a+m` receives a response,
the loop (with more than `m` iterations left) makes `m+1` attempts and returns
what that response gives. -/
theorem pingLoop_response (p : Pinger) (net : Net) (url : String)
    (s el : Int) (c : String) (m : Nat) :
    ∀ (n a : Nat) (lastErr : Option GoError),
      m < n →
      (∀ j, a ≤ j → j < a + m → (net j).failed = true) →
      net (a + m) = .response s el c →
      attempts (pingLoop p net url n a lastErr).2 = m + 1 ∧
      (pingLoop p net url n a lastErr).1 =
        { URL := url, StatusCode := s, ResponseTime := el,
          Success := decide (s ≥ 200 ∧ s < 300), Error := none,
          Body := if p.logResponseBody then c else "" } := by
  induction m with
  | zero =>
    intro n a lastErr hn _ hresp
    obtain ⟨n, rfl⟩ : ∃ k, n = k + 1 := ⟨n - 1, by omega⟩
    simp only [Nat.add_zero] at hresp
    simp only [pingLoop, hresp]
    refine ⟨?_, trivial⟩
    cases p.logResponseBody <;>
      simp [attempts_append, attempts_retryEffects, attempts_newRequest,
        attempts_clientDo, attempts_readAll, attempts_bodyClose, attempts_nil]
  | succ m ih =>
    intro n a lastErr hn hfail hresp
    obtain ⟨n, rfl⟩ : ∃ k, n = k + 1 := ⟨n - 1, by omega⟩
    have ha : (net a).failed = true := hfail a (Nat.le_refl a) (by omega)
    have hrest : ∀ j, a + 1 ≤ j → j < a + 1 + m → (net j).failed = true :=
      fun j h1 h2 => hfail j (by omega) (by omega)
    have hresp' : net (a + 1 + m) = .response s el c := by
      rw [← hresp]; congr 1; omega
    cases hna : net a with
    | newRequestErr cause =>
      obtain ⟨h1, h2⟩ := ih n (a + 1) (some (.createRequest cause)) (by omega) hrest hresp'
      simp only [pingLoop, hna]
      refine ⟨?_, h2⟩
      simp only [attempts_append, attempts_retryEffects, h1, attempts_newRequest,
        attempts_clientDo, attempts_nil]
      omega
    | doErr cause =>
      obtain ⟨h1, h2⟩ := ih n (a + 1) (some (.requestFailed cause)) (by omega) hrest hresp'
      simp only [pingLoop, hna]
      refine ⟨?_, h2⟩
      simp only [attempts_append, attempts_retryEffects, h1, attempts_newRequest,
        attempts_clientDo, attempts_nil]
      omega
    | response s' el' c' =>
      rw [hna] at ha
      simp [Attempt.failed] at ha

/-- C2. When attempts 1..k-1 of `pingURL` end without a response and attempt k
(with 1 ≤ k ≤ R+1, `maxRetries = R ≥ 0`) receives a response with status `s`,
the call makes exactly `k` attempts, whatever `s` is and whatever later attempts
would meet, and returns `StatusCode = s`, `Success = true` iff 200 ≤ s < 300,
and a nil `Error`. -/
theorem C2_pingURL_response_ends_loop (p : Pinger) (net : Net) (url : String)
    (R k : Nat) (s elapsed : Int) (content : String)
    (hR : p.maxRetries = (R : Int)) (hk1 : 1 ≤ k) (hk2 : k ≤ R + 1)
    (hfail : ∀ j, j + 1 < k → (net j).failed = true)
    (hresp : net (k - 1) = .response s elapsed content) :
    attempts (p.pingURL net url).2 = k ∧
    (p.pingURL net url).1.StatusCode = s ∧
    ((p.pingURL net url).1.Success = true ↔ (200 ≤ s ∧ s < 300)) ∧
    (p.pingURL net url).1.Error = none := by
  have hn : (p.maxRetries + 1).toNat = R + 1 := by rw [hR]; omega
  obtain ⟨h1, h2⟩ := pingLoop_response p net url s elapsed content (k - 1) (R + 1) 0 none
    (by omega) (fun j _ hj => hfail j (by omega)) (by simpa using hresp)
  unfold Pinger.pingURL
  rw [hn, h2]
  refine ⟨by rw [h1]; omega, rfl, ?_, rfl⟩
  simp

/-- Witness of C2: a 503 on the first attempt, with three retries allowed. -/
theorem C2_pingURL_response_ends_loop_witness :
    attempts ((New ["http://a"] 60000000000 10000000000 3 false).pingURL
        (fun _ => Attempt.response 503 7 "busy") "http://a").2 = 1 ∧
    ((New ["http://a"] 60000000000 10000000000 3 false).pingURL
        (fun _ => Attempt.response 503 7 "busy") "http://a").1.StatusCode = 503 ∧
    (((New ["http://a"] 60000000000 10000000000 3 false).pingURL
        (fun _ => Attempt.response 503 7 "busy") "http://a").1.Success = true
      ↔ ((200 : Int) ≤ 503 ∧ (503 : Int) < 300)) ∧
    ((New ["http://a"] 60000000000 10000000000 3 false).pingURL
        (fun _ => Attempt.response 503 7 "busy") "http://a").1.Error = none :=
  C2_pingURL_response_ends_loop (New ["http://a"] 60000000000 10000000000 3 false)
    (fun _ => Attempt.response 503 7 "busy") "http://a" 3 1 503 7 "busy" rfl
    (by decide) (by decide) (fun j hj => absurd hj (by omega)) rfl

/-! ## The outcome of `pingURL` -/

/-- With at least one iteration to run, or an error already recorded, the loop
returns either what a received response gives, with a nil error, or a non-nil
error with the zero status code. -/
theorem pingLoop_outcome (p : Pinger) (net : Net) (url : String) (n : Nat) :
    ∀ (a : Nat) (lastErr : Option GoError), (0 < n ∨ lastErr ≠ none) →
      ((∃ k s el c, net k = .response s el c ∧
          (pingLoop p net url n a lastErr).1.StatusCode = s ∧
          (pingLoop p net url n a lastErr).1.Error = none) ∨
       ((pingLoop p net url n a lastErr).1.Error ≠ none ∧
          (pingLoop p net url n a lastErr).1.StatusCode = 0)) := by
  induction n with
  | zero =>
    intro a lastErr h
    rcases h with h | h
    · omega
    · exact Or.inr ⟨by simpa [pingLoop] using h, by simp [pingLoop]⟩
  | succ n ih =>
    intro a lastErr _
    cases hn : net a with
    | newRequestErr cause =>
      simp only [pingLoop, hn]
      exact ih (a + 1) _ (Or.inr (by simp))
    | doErr cause =>
      simp only [pingLoop, hn]
      exact ih (a + 1) _ (Or.inr (by simp))
    | response s el c =>
      refine Or.inl ⟨a, s, el, c, hn, ?_, ?_⟩ <;> simp [pingLoop, hn]

/-- For `maxRetries ≥ 0` the result of `pingURL` has a status code from a
received response and a nil error, or a non-nil error and no status code. -/
theorem pingURL_outcome_of_nonneg (p : Pinger) (net : Net) (url : String)
    (h : 0 ≤ p.maxRetries) :
    (∃ k s el c, net k = .response s el c ∧
        (p.pingURL net url).1.StatusCode = s ∧ (p.pingURL net url).1.Error = none) ∨
    ((p.pingURL net url).1.Error ≠ none ∧ (p.pingURL net url).1.StatusCode = 0) :=
  pingLoop_outcome p net url _ 0 none (Or.inl (by omega))

theorem pingLoop_url (p : Pinger) (net : Net) (url : String) (n : Nat) :
    ∀ (a : Nat) (lastErr : Option GoError), (pingLoop p net url n a lastErr).1.URL = url := by
  induction n with
  | zero => intro a lastErr; rfl
  | succ n ih =>
    intro a lastErr
    cases hn : net a <;> simp only [pingLoop, hn]
    · exact ih _ _
    · exact ih _ _

theorem pingURL_url (p : Pinger) (net : Net) (url : String) : (p.pingURL net url).1.URL = url :=
  pingLoop_url p net url _ 0 none

theorem pingLoop_body (p : Pinger) (net : Net) (url : String) (h : p.logResponseBody = false)
    (n : Nat) :
    ∀ (a : Nat) (lastErr : Option GoError), (pingLoop p net url n a lastErr).1.Body = "" := by
  induction n with
  | zero => intro a lastErr; rfl
  | succ n ih =>
    intro a lastErr
    cases hn : net a <;> simp only [pingLoop, hn]
    · exact ih _ _
    · exact ih _ _
    · simp [h]

/-- C3 (at the failing input). The settings loader accepts `MAX_RETRIES=-1`;
with it `pingURL` makes no attempt at all and returns, for every URL and every
network, a result with `StatusCode = 0` and a nil `Error`. -/
theorem C3_negative_maxRetries_no_status_no_error :
    ∃ cfg, config.Load fixtures.negativeRetries = .ok cfg ∧ cfg.MaxRetries = -1 ∧
      ∀ (net : Net) (url : String),
        ((cmd.newPinger cfg).pingURL net url).1.StatusCode = 0 ∧
        ((cmd.newPinger cfg).pingURL net url).1.Error = none ∧
        ((cmd.newPinger cfg).pingURL net url).2 = [] :=
  ⟨_, rfl, rfl, fun _ _ => ⟨rfl, rfl, rfl⟩⟩

/-! ## The logged events -/

/-- C8. For every result `r`, `logResult` emits exactly one event, whose first
fields are url and success.  When `r.Success` it is the info event "Ping
successful" with status_code and response_time, and with the body iff body
logging is on and `r.Body` is not empty.  Otherwise it is the error event
"Ping failed", with the error iff `r.Error` is not nil, and with status_code and
response_time iff `r.StatusCode > 0`. -/
theorem C8_logResult_event (p : Pinger) (r : PingResult) :
    ∃ e, p.logResult r = [e] ∧
      e.fields.take 2 = [.str "url" r.URL, .bool "success" r.Success] ∧
      if r.Success = true then
        e.level = .info ∧ e.msg = "Ping successful" ∧
        e.fields = [.str "url" r.URL, .bool "success" r.Success,
                    .int "status_code" r.StatusCode, .duration "response_time" r.ResponseTime]
                   ++ (if p.logResponseBody = true ∧ r.Body ≠ "" then [.str "body" r.Body] else []) ∧
        (e.hasKey "body" ↔ (p.logResponseBody = true ∧ r.Body ≠ "")) ∧
        ¬ e.hasKey "error"
      else
        e.level = .error ∧ e.msg = "Ping failed" ∧
        e.fields = [.str "url" r.URL, .bool "success" r.Success]
                   ++ (match r.Error with | some err => [.err err] | none => [])
                   ++ (if r.StatusCode > 0 then
                        [.int "status_code" r.StatusCode,
                         .duration "response_time" r.ResponseTime] else []) ∧
        (e.hasKey "error" ↔ r.Error ≠ none) ∧
        (e.hasKey "status_code" ↔ r.StatusCode > 0) ∧
        (e.hasKey "response_time" ↔ r.StatusCode > 0) ∧
        ¬ e.hasKey "body" := by
  unfold Pinger.logResult
  by_cases hs : r.Success = true
  · by_cases hb : p.logResponseBody = true ∧ r.Body ≠ ""
    · refine ⟨_, by simp only [hs, if_true, hb, and_self]; rfl, ?_⟩
      simp [hs, hb, Entry.hasKey, Field.key]
    · refine ⟨_, by simp only [hs, if_true, hb, if_false]; rfl, ?_⟩
      simp [hs, hb, Entry.hasKey, Field.key]
  · have hs' : r.Success = false := by simpa using hs
    cases he : r.Error with
    | none =>
      by_cases hc : r.StatusCode > 0
      · refine ⟨_, by simp only [hs', if_true, hc]; rfl, ?_⟩
        simp [hs', hc, Entry.hasKey, Field.key]
      · refine ⟨_, by simp only [hs', hc, if_false]; rfl, ?_⟩
        simp [hs', hc, Entry.hasKey, Field.key]
    | some err =>
      by_cases hc : r.StatusCode > 0
      · refine ⟨_, by simp only [hs', if_true, hc]; rfl, ?_⟩
        simp [hs', hc, Entry.hasKey, Field.key]
      · refine ⟨_, by simp only [hs', hc, if_false]; rfl, ?_⟩
        simp [hs', hc, Entry.hasKey, Field.key]

/-- C9. With `logResponseBody = false` the result of `pingURL` has `Body = ""`
for every URL, every `maxRetries` and every network, and no event emitted by
`logResult` has a body field, whatever result it is given. -/
theorem C9_no_body_when_disabled (p : Pinger) (h : p.logResponseBody = false) :
    (∀ (net : Net) (url : String), (p.pingURL net url).1.Body = "") ∧
    (∀ (r : PingResult), ∀ e ∈ p.logResult r, ¬ e.hasKey "body") := by
  refine ⟨fun net url => pingLoop_body p net url h _ 0 none, ?_⟩
  intro r e he
  unfold Pinger.logResult at he
  by_cases hs : r.Success = true
  · simp [hs, h] at he
    subst he
    simp [Entry.hasKey, Field.key]
  · have hs' : r.Success = false := by simpa using hs
    cases hE : r.Error <;> by_cases hc : r.StatusCode > 0 <;>
      simp [hs', hE, hc] at he <;> subst he <;> simp [Entry.hasKey, Field.key]

/-- Witness of C9: body logging off, a response with content. -/
theorem C9_no_body_when_disabled_witness :
    fixtures.twoTargets.logResponseBody = false ∧
    (fixtures.twoTargets.pingURL fixtures.allOK "http://a/ok").1.Body = "" ∧
    (∀ e ∈ fixtures.twoTargets.logResult
        { URL := "http://a/ok", StatusCode := 200, ResponseTime := 5, Success := true,
          Error := none, Body := "pong" }, ¬ e.hasKey "body") :=
  ⟨rfl, (C9_no_body_when_disabled fixtures.twoTargets rfl).1 fixtures.allOK "http://a/ok",
    (C9_no_body_when_disabled fixtures.twoTargets rfl).2 _⟩

/-! ## The scheduler loop `Start` -/

theorem startStep_panicked (s : StartState) (ev : Event) (h : s.phase = .panicked) :
    (startStep s ev).phase = .panicked ∧ (startStep s ev).trace = s.trace := by
  cases ev <;> simp [startStep, h]

theorem foldl_startStep_panicked (evs : List Event) :
    ∀ s : StartState, s.phase = .panicked →
      (evs.foldl startStep s).phase = .panicked ∧ (evs.foldl startStep s).trace = s.trace := by
  induction evs with
  | nil => intro s h; exact ⟨h, rfl⟩
  | cons ev evs ih =>
    intro s h
    obtain ⟨h1, h2⟩ := startStep_panicked s ev h
    obtain ⟨h3, h4⟩ := ih (startStep s ev) h1
    exact ⟨h3, h4.trans h2⟩

theorem startStep_stopped (s : StartState) (ev : Event) (h : s.phase = .stopped) :
    (startStep s ev).phase = .stopped ∧ (startStep s ev).trace = s.trace := by
  cases ev <;> simp [startStep, h]

theorem foldl_startStep_stopped (evs : List Event) :
    ∀ s : StartState, s.phase = .stopped →
      (evs.foldl startStep s).phase = .stopped ∧ (evs.foldl startStep s).trace = s.trace := by
  induction evs with
  | nil => intro s h; exact ⟨h, rfl⟩
  | cons ev evs ih =>
    intro s h
    obtain ⟨h1, h2⟩ := startStep_stopped s ev h
    obtain ⟨h3, h4⟩ := ih (startStep s ev) h1
    exact ⟨h3, h4.trans h2⟩

/-- One received tick: the running cycle ends, then the next one begins. -/
theorem foldl_tickRound (s : StartState) (early : Bool) (h : s.phase = .inPingAll) :
    ((tickRound early).foldl startStep s).phase = .inPingAll ∧
    ((tickRound early).foldl startStep s).trace = s.trace ++ [.pingAllReturn, .pingAllCall] := by
  cases early <;> simp [tickRound, startStep, h]

theorem foldl_ticks (ticks : List Bool) :
    ∀ s : StartState, s.phase = .inPingAll →
      ((ticks.flatMap tickRound).foldl startStep s).phase = .inPingAll ∧
      ((ticks.flatMap tickRound).foldl startStep s).trace =
        s.trace ++ (List.replicate ticks.length [Action.pingAllReturn, Action.pingAllCall]).flatten := by
  induction ticks with
  | nil => intro s h; simpa using h
  | cons b ticks ih =>
    intro s h
    obtain ⟨h1, h2⟩ := foldl_tickRound s b h
    obtain ⟨h3, h4⟩ := ih _ h1
    rw [List.flatMap_cons, List.foldl_append]
    refine ⟨h3, ?_⟩
    rw [h4, h2]
    simp [List.replicate_succ]

/-- A cancellation observed at the wait point: the running cycle ends, then `Start` stops. -/
theorem foldl_cancelRound (s : StartState) (early : Bool) (h : s.phase = .inPingAll) :
    ((cancelRound early).foldl startStep s).phase = .stopped ∧
    ((cancelRound early).foldl startStep s).trace =
      s.trace ++ [.pingAllReturn, .log stoppedEntry, .tickerStop] := by
  cases early <;> simp [cancelRound, startStep, h]

theorem startBegin_of_pos (p : Pinger) (h : 0 < p.interval) :
    p.startBegin.phase = .inPingAll ∧
    p.startBegin.trace = [.log (startedEntry p), .newTicker p.interval, .pingAllCall] := by
  have : ¬ p.interval ≤ 0 := by omega
  simp [Pinger.startBegin, this]

theorem cyclesBegun_append (a b : List Action) :
    cyclesBegun (a ++ b) = cyclesBegun a + cyclesBegun b := by
  simp [cyclesBegun]

theorem cyclesEnded_append (a b : List Action) :
    cyclesEnded (a ++ b) = cyclesEnded a + cyclesEnded b := by
  simp [cyclesEnded]

theorem cyclesBegun_rounds (k : Nat) :
    cyclesBegun (List.replicate k [Action.pingAllReturn, Action.pingAllCall]).flatten = k := by
  induction k with
  | zero => rfl
  | succ k ih =>
    rw [List.replicate_succ, List.flatten_cons, cyclesBegun_append, ih]
    simp [cyclesBegun, List.count_cons]
    omega

/-- The runs of `ticksThenCancel`: one cycle per tick, then the stop. -/
theorem Start_ticksThenCancel (p : Pinger) (hpos : 0 < p.interval)
    (ticks : List Bool) (earlyCancel : Bool) (later : List Event) :
    (p.Start (ticksThenCancel ticks earlyCancel ++ later)).phase = .stopped ∧
    cyclesBegun (p.Start (ticksThenCancel ticks earlyCancel ++ later)).trace = ticks.length + 1 ∧
    (p.Start (ticksThenCancel ticks earlyCancel ++ later)).trace =
      [.log (startedEntry p), .newTicker p.interval, .pingAllCall]
        ++ (List.replicate ticks.length [Action.pingAllReturn, Action.pingAllCall]).flatten
        ++ [.pingAllReturn, .log stoppedEntry, .tickerStop] := by
  obtain ⟨hb1, hb2⟩ := startBegin_of_pos p hpos
  obtain ⟨ht1, ht2⟩ := foldl_ticks ticks p.startBegin hb1
  obtain ⟨hc1, hc2⟩ := foldl_cancelRound _ earlyCancel ht1
  obtain ⟨hl1, hl2⟩ := foldl_startStep_stopped later _ hc1
  have htr : (p.Start (ticksThenCancel ticks earlyCancel ++ later)).trace =
      [.log (startedEntry p), .newTicker p.interval, .pingAllCall]
        ++ (List.replicate ticks.length [Action.pingAllReturn, Action.pingAllCall]).flatten
        ++ [.pingAllReturn, .log stoppedEntry, .tickerStop] := by
    unfold Pinger.Start ticksThenCancel
    rw [List.foldl_append, List.foldl_append, hl2, hc2, ht2, hb2]
  refine ⟨?_, ?_, htr⟩
  · unfold Pinger.Start ticksThenCancel
    rw [List.foldl_append, List.foldl_append]
    exact hl1
  · rw [htr, cyclesBegun_append, cyclesBegun_append, cyclesBegun_rounds]
    simp [cyclesBegun, List.count_cons]
    omega

theorem realizable_append (evs more : List Event) :
    ∀ s : StartState, s.realizable (evs ++ more)
      = (s.realizable evs && (evs.foldl startStep s).realizable more) := by
  induction evs with
  | nil => intro s; simp [StartState.realizable]
  | cons ev evs ih =>
    intro s
    show (startEnabled s ev && (startStep s ev).realizable (evs ++ more)) = _
    rw [ih]
    simp only [StartState.realizable, List.foldl_cons, Bool.and_assoc]

theorem realizable_tickRound (s : StartState) (early : Bool) (h : s.phase = .inPingAll) :
    s.realizable (tickRound early) = true := by
  cases early <;> simp [tickRound, StartState.realizable, startEnabled, startStep, h]

theorem realizable_cancelRound (s : StartState) (early : Bool) (h : s.phase = .inPingAll) :
    s.realizable (cancelRound early) = true := by
  cases early <;> simp [cancelRound, StartState.realizable, startEnabled, startStep, h]

theorem realizable_ticks (ticks : List Bool) :
    ∀ s : StartState, s.phase = .inPingAll →
      s.realizable (ticks.flatMap tickRound) = true := by
  induction ticks with
  | nil => intro s _; rfl
  | cons b ticks ih =>
    intro s h
    rw [List.flatMap_cons, realizable_append, realizable_tickRound s b h,
      ih _ (foldl_tickRound s b h).1]
    rfl

theorem realizable_ticksThenCancel (p : Pinger) (hpos : 0 < p.interval)
    (ticks : List Bool) (earlyCancel : Bool) :
    p.startBegin.realizable (ticksThenCancel ticks earlyCancel) = true := by
  have hb := (startBegin_of_pos p hpos).1
  unfold ticksThenCancel
  rw [realizable_append, realizable_ticks ticks _ hb,
    realizable_cancelRound _ earlyCancel (foldl_ticks ticks _ hb).1]
  rfl

theorem count_ticksThenCancel (ticks : List Bool) (earlyCancel : Bool) :
    (ticksThenCancel ticks earlyCancel).count .tick = ticks.length ∧
    (ticksThenCancel ticks earlyCancel).count .selectTick = ticks.length := by
  unfold ticksThenCancel
  have h : ∀ l : List Bool, (l.flatMap tickRound).count .tick = l.length ∧
      (l.flatMap tickRound).count .selectTick = l.length := by
    intro l
    induction l with
    | nil => exact ⟨rfl, rfl⟩
    | cons b l ih =>
      rw [List.flatMap_cons, List.count_append, List.count_append, ih.1, ih.2]
      cases b <;> simp [tickRound, List.count_cons] <;> omega
  rw [List.count_append, List.count_append, (h ticks).1, (h ticks).2]
  cases earlyCancel <;> simp [cancelRound, List.count_cons]

/-- An event that happens adds its actions to the trace. -/
theorem startStep_actions (s : StartState) (ev : Event) (h : startEnabled s ev = true) :
    (startStep s ev).trace = s.trace ++ ev.actions := by
  cases ev with
  | tick =>
    simp only [startEnabled, decide_eq_true_eq] at h
    rcases h with h | h <;> simp [startStep, h, Event.actions]
  | cancel => simp [startStep, Event.actions]
  | pingAllReturns =>
    simp only [startEnabled, decide_eq_true_eq] at h
    simp [startStep, h, Event.actions]
  | selectTick =>
    simp only [startEnabled, Bool.and_eq_true, decide_eq_true_eq] at h
    simp [startStep, h, Event.actions]
  | selectDone =>
    simp only [startEnabled, Bool.and_eq_true, decide_eq_true_eq] at h
    simp [startStep, h, Event.actions]

theorem foldl_actions (evs : List Event) :
    ∀ s : StartState, s.realizable evs = true →
      (evs.foldl startStep s).trace = s.trace ++ evs.flatMap Event.actions := by
  induction evs with
  | nil => intro s _; simp
  | cons ev evs ih =>
    intro s h
    simp only [StartState.realizable, Bool.and_eq_true] at h
    rw [List.foldl_cons, ih _ h.2, startStep_actions s ev h.1, List.flatMap_cons,
      List.append_assoc]

theorem cyclesBegun_actions (evs : List Event) :
    cyclesBegun (evs.flatMap Event.actions) = evs.count .selectTick := by
  induction evs with
  | nil => rfl
  | cons ev evs ih =>
    rw [List.flatMap_cons, cyclesBegun_append, ih]
    cases ev <;> simp [Event.actions, cyclesBegun, List.count_cons]
    omega

/-- The `select` receives no more ticks than the ticker has fired. -/
theorem received_le_fired (evs : List Event) :
    ∀ s : StartState, s.realizable evs = true →
      evs.count .selectTick ≤ (if s.tickBuffered = true then 1 else 0) + evs.count .tick := by
  induction evs with
  | nil => intro s _; simp
  | cons ev evs ih =>
    intro s h
    simp only [StartState.realizable, Bool.and_eq_true] at h
    have hrec := ih _ h.2
    cases ev with
    | tick =>
      simp only [List.count_cons, beq_self_eq_true, if_true] at hrec ⊢
      have : (if (startStep s .tick).tickBuffered = true then 1 else 0) ≤ 1 := by split <;> omega
      simp at hrec ⊢
      omega
    | cancel =>
      have hb : (startStep s .cancel).tickBuffered = s.tickBuffered := by simp [startStep]
      rw [hb] at hrec
      simpa [List.count_cons] using hrec
    | pingAllReturns =>
      have hb : (startStep s .pingAllReturns).tickBuffered = s.tickBuffered := by
        simp only [startStep]; split <;> rfl
      rw [hb] at hrec
      simpa [List.count_cons] using hrec
    | selectTick =>
      have hen := h.1
      simp only [startEnabled, Bool.and_eq_true, decide_eq_true_eq] at hen
      have hb : (startStep s .selectTick).tickBuffered = false := by
        simp [startStep, hen]
      rw [hb] at hrec
      simp [List.count_cons, hen.2] at hrec ⊢
      omega
    | selectDone =>
      have hb : (startStep s .selectDone).tickBuffered = s.tickBuffered := by
        simp only [startStep]; split <;> rfl
      rw [hb] at hrec
      simpa [List.count_cons] using hrec

/-- `Start` has returned exactly when its `select` has taken the cancellation. -/
theorem stopped_iff_selectDone (evs : List Event) :
    ∀ s : StartState, s.realizable evs = true → (s.phase = .inPingAll ∨ s.phase = .waiting) →
      ((evs.foldl startStep s).phase = .stopped ↔ Event.selectDone ∈ evs) := by
  induction evs with
  | nil =>
    intro s _ hp
    rcases hp with hp | hp <;> simp [hp]
  | cons ev evs ih =>
    intro s h hp
    simp only [StartState.realizable, Bool.and_eq_true] at h
    cases ev with
    | tick =>
      have hp' : (startStep s .tick).phase = .inPingAll ∨ (startStep s .tick).phase = .waiting := by
        rcases hp with hp | hp <;> simp [startStep, hp]
      simpa using ih _ h.2 hp'
    | cancel =>
      have hp' : (startStep s .cancel).phase = .inPingAll ∨
          (startStep s .cancel).phase = .waiting := by
        simpa [startStep] using hp
      simpa using ih _ h.2 hp'
    | pingAllReturns =>
      have hen := h.1
      simp only [startEnabled, decide_eq_true_eq] at hen
      have hp' : (startStep s .pingAllReturns).phase = .inPingAll ∨
          (startStep s .pingAllReturns).phase = .waiting := by
        simp [startStep, hen]
      simpa using ih _ h.2 hp'
    | selectTick =>
      have hen := h.1
      simp only [startEnabled, Bool.and_eq_true, decide_eq_true_eq] at hen
      have hp' : (startStep s .selectTick).phase = .inPingAll ∨
          (startStep s .selectTick).phase = .waiting := by
        simp [startStep, hen]
      simpa using ih _ h.2 hp'
    | selectDone =>
      have hen := h.1
      simp only [startEnabled, Bool.and_eq_true, decide_eq_true_eq] at hen
      have hst : (startStep s .selectDone).phase = .stopped := by simp [startStep, hen]
      simp only [List.foldl_cons, List.mem_cons, true_or, iff_true]
      exact (foldl_startStep_stopped evs _ hst).1

/-- When `Start` has returned, the last things it did are the "Pinger stopped"
event and the deferred `ticker.Stop()`. -/
theorem stopped_trace (evs : List Event) :
    ∀ s : StartState,
      (s.phase = .stopped → ∃ tr, s.trace = tr ++ [.log stoppedEntry, .tickerStop]) →
      (evs.foldl startStep s).phase = .stopped →
      ∃ tr, (evs.foldl startStep s).trace = tr ++ [.log stoppedEntry, .tickerStop] := by
  induction evs with
  | nil => intro s hs h; exact hs h
  | cons ev evs ih =>
    intro s hs h
    refine ih (startStep s ev) ?_ h
    intro hst
    by_cases hp : s.phase = .stopped
    · rw [(startStep_stopped s ev hp).2]; exact hs hp
    · cases ev with
      | tick =>
        cases hph : s.phase <;> simp [startStep, hph] at hst
        exact absurd hph hp
      | cancel => simp [startStep] at hst; exact absurd hst hp
      | pingAllReturns =>
        simp only [startStep] at hst
        split at hst
        · simp at hst
        · exact absurd hst hp
      | selectTick =>
        simp only [startStep] at hst
        split at hst
        · simp at hst
        · exact absurd hst hp
      | selectDone =>
        simp only [startStep] at hst ⊢
        split at hst
        · rename_i hc
          rw [if_pos hc]
          exact ⟨s.trace, rfl⟩
        · exact absurd hst hp

/-- C5, refuted. Two ticks fire during the first cycle of the two-target pinger
and the cancellation is then observed at the wait point: every event of the run
can happen, `Start` returns, and it has run 2 cycles, not 3 (the second tick was
dropped).  One tick fires, the cancellation arrives, and the `select` takes the
cancellation: `Start` has run 1 cycle, not 2. -/
theorem C5_fired_ticks_need_not_be_served :
    fixtures.twoTargets.startBegin.realizable
      [.tick, .tick, .pingAllReturns, .selectTick, .pingAllReturns, .cancel, .selectDone] = true ∧
    (fixtures.twoTargets.Start
      [.tick, .tick, .pingAllReturns, .selectTick, .pingAllReturns, .cancel, .selectDone]).phase
        = .stopped ∧
    cyclesBegun (fixtures.twoTargets.Start
      [.tick, .tick, .pingAllReturns, .selectTick, .pingAllReturns, .cancel, .selectDone]).trace
        = 2 ∧
    fixtures.twoTargets.startBegin.realizable
      [.tick, .cancel, .pingAllReturns, .selectDone] = true ∧
    (fixtures.twoTargets.Start [.tick, .cancel, .pingAllReturns, .selectDone]).phase = .stopped ∧
    cyclesBegun (fixtures.twoTargets.Start [.tick, .cancel, .pingAllReturns, .selectDone]).trace
        = 1 := by
  decide

/-- C5, amended. For a pinger with a positive interval and every run whose
events can all happen: `Start` does, after "Pinger started" and the creation of
the ticker, one call of `pingAll` at once and then exactly what the events ask
for, so it runs one cycle plus one per tick received by its `select`; the ticks
received are at most the ticks fired; it has returned exactly when the `select`
has taken the cancellation, its last actions are then "Pinger stopped" and the
stop of the ticker, and no later event makes it do anything.  On the runs of
`ticksThenCancel`, where each of `k` fired ticks is received before the
cancellation is taken, it runs exactly `k + 1` cycles. -/
theorem C5_start_one_cycle_per_received_tick (p : Pinger) (hpos : 0 < p.interval) :
    (∀ evs : List Event, p.startBegin.realizable evs = true →
      (p.Start evs).trace =
        [.log (startedEntry p), .newTicker p.interval, .pingAllCall]
          ++ evs.flatMap Event.actions ∧
      cyclesBegun (p.Start evs).trace = evs.count .selectTick + 1 ∧
      evs.count .selectTick ≤ evs.count .tick ∧
      ((p.Start evs).phase = .stopped ↔ Event.selectDone ∈ evs) ∧
      ((p.Start evs).phase = .stopped →
        (∃ tr, (p.Start evs).trace = tr ++ [.log stoppedEntry, .tickerStop]) ∧
        ∀ later : List Event,
          (p.Start (evs ++ later)).phase = .stopped ∧
          (p.Start (evs ++ later)).trace = (p.Start evs).trace)) ∧
    (∀ (ticks : List Bool) (earlyCancel : Bool),
      p.startBegin.realizable (ticksThenCancel ticks earlyCancel) = true ∧
      (ticksThenCancel ticks earlyCancel).count .tick = ticks.length ∧
      (ticksThenCancel ticks earlyCancel).count .selectTick = ticks.length ∧
      (p.Start (ticksThenCancel ticks earlyCancel)).phase = .stopped ∧
      cyclesBegun (p.Start (ticksThenCancel ticks earlyCancel)).trace = ticks.length + 1) := by
  obtain ⟨hb1, hb2⟩ := startBegin_of_pos p hpos
  have hbuf : p.startBegin.tickBuffered = false := by
    have : ¬ p.interval ≤ 0 := by omega
    simp [Pinger.startBegin, this]
  refine ⟨fun evs hreal => ?_, fun ticks earlyCancel => ?_⟩
  · have htr : (p.Start evs).trace =
        [.log (startedEntry p), .newTicker p.interval, .pingAllCall]
          ++ evs.flatMap Event.actions := by
      unfold Pinger.Start
      rw [foldl_actions evs _ hreal, hb2]
    refine ⟨htr, ?_, ?_, stopped_iff_selectDone evs _ hreal (Or.inl hb1), fun hst => ⟨?_, ?_⟩⟩
    · rw [htr, cyclesBegun_append, cyclesBegun_actions]
      simp [cyclesBegun, List.count_cons]
      omega
    · have := received_le_fired evs _ hreal
      rw [hbuf] at this
      simpa using this
    · exact stopped_trace evs _ (fun h => by rw [hb1] at h; cases h) hst
    · intro later
      have := foldl_startStep_stopped later (p.Start evs) hst
      unfold Pinger.Start at this ⊢
      rw [List.foldl_append]
      exact this
  · have h := Start_ticksThenCancel p hpos ticks earlyCancel []
    rw [List.append_nil] at h
    exact ⟨realizable_ticksThenCancel p hpos ticks earlyCancel,
      (count_ticksThenCancel ticks earlyCancel).1, (count_ticksThenCancel ticks earlyCancel).2,
      h.1, h.2.1⟩

/-- Witness of C5: the run of the refutation, two ticks fired, one received, two cycles. -/
theorem C5_start_one_cycle_per_received_tick_witness :
    0 < fixtures.twoTargets.interval ∧
    fixtures.twoTargets.startBegin.realizable
      [.tick, .tick, .pingAllReturns, .selectTick, .pingAllReturns, .cancel, .selectDone] = true ∧
    cyclesBegun (fixtures.twoTargets.Start
      [.tick, .tick, .pingAllReturns, .selectTick, .pingAllReturns, .cancel, .selectDone]).trace
      = [Event.tick, .tick, .pingAllReturns, .selectTick, .pingAllReturns, .cancel,
          .selectDone].count .selectTick + 1 ∧
    cyclesBegun (fixtures.twoTargets.Start (ticksThenCancel [false, true, true] false)).trace
      = 3 + 1 :=
  ⟨by decide, by decide,
   ((C5_start_one_cycle_per_received_tick fixtures.twoTargets (by decide)).1 _ (by decide)).2.1,
   ((C5_start_one_cycle_per_received_tick fixtures.twoTargets (by decide)).2
      [false, true, true] false).2.2.2.2⟩

theorem startBegin_serial (p : Pinger) : p.startBegin.serial := by
  unfold StartState.serial Pinger.startBegin
  split <;> simp [cyclesBegun, cyclesEnded, List.count_cons]

theorem startStep_serial (s : StartState) (ev : Event) (h : s.serial) :
    (startStep s ev).serial := by
  unfold StartState.serial at *
  cases ev with
  | tick =>
    cases hp : s.phase <;> simp [startStep, hp] <;> simpa [hp] using h
  | cancel => simpa [startStep] using h
  | pingAllReturns =>
    by_cases hp : s.phase = .inPingAll
    · simp [startStep, hp, cyclesBegun_append, cyclesEnded_append] at h ⊢
      simp [cyclesBegun, cyclesEnded, List.count_cons] at h ⊢
      omega
    · simpa [startStep, hp] using h
  | selectTick =>
    by_cases hp : s.phase = .waiting ∧ s.tickBuffered = true
    · simp [startStep, hp, cyclesBegun_append, cyclesEnded_append] at h ⊢
      simp [cyclesBegun, cyclesEnded, List.count_cons] at h ⊢
      omega
    · simp only [startStep, hp, if_false]; exact h
  | selectDone =>
    by_cases hp : s.phase = .waiting ∧ s.cancelled = true
    · simp [startStep, hp, cyclesBegun_append, cyclesEnded_append] at h ⊢
      simp [cyclesBegun, cyclesEnded, List.count_cons] at h ⊢
      omega
    · simp only [startStep, hp, if_false]; exact h

theorem foldl_startStep_serial (evs : List Event) :
    ∀ s : StartState, s.serial → (evs.foldl startStep s).serial := by
  induction evs with
  | nil => intro s h; exact h
  | cons ev evs ih => intro s h; exact ih _ (startStep_serial s ev h)

theorem startStep_tick (s : StartState) :
    (startStep s .tick).trace = s.trace ∧ (startStep s .tick).phase = s.phase := by
  cases hp : s.phase <;> simp [startStep, hp]

/-- Ticks that fire during a cycle: the first one is kept in the ticker channel, the others are dropped. -/
theorem foldl_ticks_inPingAll (n : Nat) :
    ∀ s : StartState, s.phase = .inPingAll →
      (List.replicate (n + 1) Event.tick).foldl startStep s = { s with tickBuffered := true } := by
  induction n with
  | zero => intro s h; simp [startStep, h]
  | succ n ih =>
    intro s h
    rw [List.replicate_succ, List.foldl_cons]
    have h1 : startStep s .tick = { s with tickBuffered := true } := by simp [startStep, h]
    rw [h1]
    exact ih { s with tickBuffered := true } h

/-- C6, refuted: the first cycle of the two-target pinger is running, the ticker
fires (even twice): `Start` stays inside `pingAll` and launches no second cycle,
and its `select` cannot take the tick before `pingAll` has returned. -/
theorem C6_tick_during_cycle_launches_nothing :
    (fixtures.twoTargets.Start []).phase = .inPingAll ∧
    (fixtures.twoTargets.Start [.tick]).phase = .inPingAll ∧
    cyclesBegun (fixtures.twoTargets.Start [.tick]).trace = 1 ∧
    cyclesEnded (fixtures.twoTargets.Start [.tick]).trace = 0 ∧
    cyclesBegun (fixtures.twoTargets.Start [.tick, .tick, .selectTick]).trace = 1 ∧
    (fixtures.twoTargets.Start [.tick, .pingAllReturns, .selectTick]).trace =
      [.log (startedEntry fixtures.twoTargets), .newTicker fixtures.twoTargets.interval,
       .pingAllCall, .pingAllReturn, .pingAllCall] := by
  decide

/-- C6, amended. `Start` calls `pingAll` synchronously, so cycles never overlap:
in every run the cycles begun are the cycles ended plus the one running, if
any.  When the ticker fires once or more while a cycle is running, `Start`
launches nothing: the first tick is kept in the ticker channel and the further
ones are dropped, and the `select` cannot take the tick before `pingAll` has
returned.  Once `pingAll` has returned the `select` takes the kept tick and
`Start` launches the next cycle, one cycle whatever the number of ticks fired:
after it, the `select` finds no tick. -/
theorem C6_cycles_are_serialized (p : Pinger) (evs run : List Event) (n : Nat)
    (hrun : (p.Start run).phase = .inPingAll) :
    (cyclesBegun (p.Start evs).trace =
      cyclesEnded (p.Start evs).trace + (if (p.Start evs).phase = .inPingAll then 1 else 0) ∧
     cyclesBegun (p.Start evs).trace ≤ cyclesEnded (p.Start evs).trace + 1) ∧
    p.Start (run ++ List.replicate (n + 1) .tick) =
      { p.Start run with tickBuffered := true } ∧
    p.Start (run ++ List.replicate (n + 1) .tick ++ [.selectTick]) =
      { p.Start run with tickBuffered := true } ∧
    p.Start (run ++ List.replicate (n + 1) .tick ++ [.pingAllReturns, .selectTick]) =
      { p.Start run with
          phase := .inPingAll, tickBuffered := false,
          trace := (p.Start run).trace ++ [.pingAllReturn, .pingAllCall] } ∧
    p.Start (run ++ List.replicate (n + 1) .tick
        ++ [.pingAllReturns, .selectTick, .pingAllReturns, .selectTick]) =
      { p.Start run with
          phase := .waiting, tickBuffered := false,
          trace := (p.Start run).trace ++ [.pingAllReturn, .pingAllCall, .pingAllReturn] } := by
  have h : (p.Start evs).serial := foldl_startStep_serial evs _ (startBegin_serial p)
  unfold StartState.serial at h
  have hticks : p.Start (run ++ List.replicate (n + 1) .tick) =
      { p.Start run with tickBuffered := true } := by
    unfold Pinger.Start at hrun ⊢
    rw [List.foldl_append, foldl_ticks_inPingAll n _ hrun]
  have happ : ∀ more : List Event, p.Start (run ++ List.replicate (n + 1) .tick ++ more) =
      more.foldl startStep { p.Start run with tickBuffered := true } := by
    intro more
    rw [← hticks]
    unfold Pinger.Start
    rw [List.foldl_append]
  refine ⟨⟨h, by rw [h]; split <;> omega⟩, hticks, ?_, ?_, ?_⟩
  · rw [happ]; simp [startStep, hrun]
  · rw [happ]; simp [startStep, hrun]
  · rw [happ]; simp [startStep, hrun]

/-- Witness of C6: three ticks fire during the first cycle of the two-target pinger. -/
theorem C6_cycles_are_serialized_witness :
    (fixtures.twoTargets.Start []).phase = .inPingAll ∧
    fixtures.twoTargets.Start ([] ++ List.replicate (2 + 1) .tick) =
      { fixtures.twoTargets.Start [] with tickBuffered := true } ∧
    fixtures.twoTargets.Start ([] ++ List.replicate (2 + 1) .tick
        ++ [.pingAllReturns, .selectTick, .pingAllReturns, .selectTick]) =
      { fixtures.twoTargets.Start [] with
          phase := .waiting, tickBuffered := false,
          trace := (fixtures.twoTargets.Start []).trace
            ++ [.pingAllReturn, .pingAllCall, .pingAllReturn] } :=
  ⟨by decide,
   (C6_cycles_are_serialized fixtures.twoTargets [] [] 2 (by decide)).2.1,
   (C6_cycles_are_serialized fixtures.twoTargets [] [] 2 (by decide)).2.2.2.2⟩

/-- With an interval that is not positive, `Start` ends in the panic of
`time.NewTicker` before any cycle. -/
theorem Start_of_nonpos (p : Pinger) (h : p.interval ≤ 0) (evs : List Event) :
    (p.Start evs).phase = .panicked ∧
    (p.Start evs).trace = [.log (startedEntry p)] ∧
    cyclesBegun (p.Start evs).trace = 0 := by
  have hb : p.startBegin.phase = .panicked ∧ p.startBegin.trace = [.log (startedEntry p)] := by
    simp [Pinger.startBegin, h]
  obtain ⟨h1, h2⟩ := foldl_startStep_panicked evs p.startBegin hb.1
  have htr : (p.Start evs).trace = [.log (startedEntry p)] := h2.trans hb.2
  exact ⟨h1, htr, by rw [htr]; rfl⟩

/-- C7 (at the failing input). The settings loader accepts `PING_INTERVAL=0`;
with it `time.NewTicker` is handed the interval 0 and panics: whatever happens
afterwards, `Start` has ended in the panic, having logged only "Pinger started"
and run no cycle. -/
theorem C7_zero_interval_panics :
    ∃ cfg, config.Load fixtures.zeroInterval = .ok cfg ∧ cfg.PingInterval = 0 ∧
      ∀ evs : List Event,
        ((cmd.newPinger cfg).Start evs).phase = .panicked ∧
        ((cmd.newPinger cfg).Start evs).trace = [.log (startedEntry (cmd.newPinger cfg))] ∧
        cyclesBegun ((cmd.newPinger cfg).Start evs).trace = 0 := by
  exact ⟨config.Config.mk ["http://a/ok", "http://b/fail"] 0 (10 * time.Second) 3 "info" false,
    by decide, rfl, fun evs => Start_of_nonpos _ (by decide) evs⟩

end pinger

/-! ## The settings loader -/

namespace strings

theorem splitChars_ne_nil (sep : Char) (cs : List Char) : splitChars sep cs ≠ [] := by
  cases cs with
  | nil => simp [splitChars]
  | cons c cs =>
    unfold splitChars
    split
    · simp
    · split <;> simp

/-- Joining the pieces of `Split` with the separator gives the string back. -/
theorem intercalate_splitChars (sep : Char) (cs : List Char) :
    List.intercalate [sep] (splitChars sep cs) = cs := by
  induction cs with
  | nil => simp [splitChars, List.intercalate]
  | cons c cs ih =>
    unfold splitChars
    by_cases hc : c = sep
    · simp only [hc, if_true]
      cases hs : splitChars sep cs with
      | nil => exact absurd hs (splitChars_ne_nil sep cs)
      | cons piece pieces =>
        rw [hs] at ih
        simp only [List.intercalate, List.intersperse, List.flatten_cons, List.nil_append] at ih ⊢
        rw [ih]; rfl
    · simp only [hc, if_false]
      cases hs : splitChars sep cs with
      | nil => exact absurd hs (splitChars_ne_nil sep cs)
      | cons piece pieces =>
        rw [hs] at ih
        simp only [List.intercalate] at ih ⊢
        cases pieces with
        | nil => simpa [List.intersperse] using ih
        | cons q qs => simpa [List.intersperse] using ih

/-- No piece of `Split` contains the separator. -/
theorem splitChars_no_sep (sep : Char) (cs : List Char) :
    ∀ piece ∈ splitChars sep cs, sep ∉ piece := by
  induction cs with
  | nil => simp [splitChars]
  | cons c cs ih =>
    unfold splitChars
    by_cases hc : c = sep
    · simp only [hc, if_true]
      intro piece hp
      rcases List.mem_cons.1 hp with h | h
      · simp [h]
      · exact ih piece h
    · simp only [hc, if_false]
      cases hs : splitChars sep cs with
      | nil => exact absurd hs (splitChars_ne_nil sep cs)
      | cons q qs =>
        rw [hs] at ih
        intro piece hp
        rcases List.mem_cons.1 hp with h | h
        · subst h
          have := ih q (List.mem_cons_self _ _)
          simp only [List.mem_cons, not_or]
          exact ⟨fun h => hc h.symm, this⟩
        · exact ih piece (List.mem_cons_of_mem _ h)

/-- What `TrimSpace` returns is the string without a run of white space at its
start and one at its end, and neither starts nor ends with white space. -/
theorem trimSpaceChars_spec (cs : List Char) :
    ∃ pre post, cs = pre ++ trimSpaceChars cs ++ post ∧
      (∀ c ∈ pre, isSpace c = true) ∧ (∀ c ∈ post, isSpace c = true) ∧
      (∀ c, (trimSpaceChars cs).head? = some c → isSpace c = false) ∧
      (∀ c, (trimSpaceChars cs).getLast? = some c → isSpace c = false) := by
  refine ⟨cs.takeWhile isSpace, ((cs.dropWhile isSpace).reverse.takeWhile isSpace).reverse,
    ?_, ?_, ?_, ?_, ?_⟩
  · unfold trimSpaceChars
    rw [List.append_assoc, ← List.reverse_append, List.takeWhile_append_dropWhile,
      List.reverse_reverse, List.takeWhile_append_dropWhile]
  · intro c hc; exact List.mem_takeWhile_imp hc
  · intro c hc; exact List.mem_takeWhile_imp (List.mem_reverse.1 hc)
  · intro c hc
    have hdec : cs.dropWhile isSpace =
        trimSpaceChars cs ++ ((cs.dropWhile isSpace).reverse.takeWhile isSpace).reverse := by
      unfold trimSpaceChars
      rw [← List.reverse_append, List.takeWhile_append_dropWhile, List.reverse_reverse]
    have hhead : (cs.dropWhile isSpace).head? = some c := by
      rw [hdec]
      cases ht : trimSpaceChars cs with
      | nil => rw [ht] at hc; simp at hc
      | cons a t => rw [ht] at hc; simpa using hc
    have := List.head?_dropWhile_not isSpace cs
    rw [hhead] at this
    simpa using this
  · intro c hc
    unfold trimSpaceChars at hc
    rw [List.getLast?_reverse] at hc
    have := List.head?_dropWhile_not isSpace (cs.dropWhile isSpace).reverse
    rw [hc] at this
    simpa using this

end strings

namespace config

theorem foldl_clean (urls : List String) :
    ∀ acc : List String,
      urls.foldl (fun clean url =>
        let trimmed := strings.TrimSpace url
        if trimmed ≠ "" then clean ++ [trimmed] else clean) acc
      = acc ++ (urls.map strings.TrimSpace).filter (fun u => u ≠ "") := by
  induction urls with
  | nil => intro acc; simp
  | cons u urls ih =>
    intro acc
    simp only [List.foldl_cons, List.map_cons]
    rw [ih]
    by_cases h : strings.TrimSpace u = ""
    · simp [h]
    · simp [h]

theorem cleanURLs_eq (urls : List String) :
    cleanURLs urls = (urls.map strings.TrimSpace).filter (fun u => u ≠ "") := by
  unfold cleanURLs
  rw [foldl_clean]
  simp

theorem getEnvOrDefault_of_empty (env : Env) (key d : String) (h : env.getenv key = "") :
    getEnvOrDefault env key d = d := by
  simp [getEnvOrDefault, h]

theorem Atoi_60 : strconv.Atoi "60" = some 60 := by decide
theorem Atoi_10 : strconv.Atoi "10" = some 10 := by decide
theorem Atoi_3 : strconv.Atoi "3" = some 3 := by decide
theorem ParseBool_false : strconv.ParseBool "false" = some false := by decide

theorem Load_ok (env : Env) (cfg : Config) (h : Load env = .ok cfg) :
    env.dotenvErr = none ∧ env.getenv "PING_URLS" ≠ "" ∧
    cfg.PingURLs = cleanURLs (strings.Split (env.getenv "PING_URLS") ',') ∧
    cfg.PingURLs ≠ [] ∧
    (∃ intervalSec, strconv.Atoi (getEnvOrDefault env "PING_INTERVAL" "60") = some intervalSec ∧
      cfg.PingInterval = time.int64 (intervalSec * time.Second)) ∧
    (∃ timeoutSec, strconv.Atoi (getEnvOrDefault env "REQUEST_TIMEOUT" "10") = some timeoutSec ∧
      cfg.RequestTimeout = time.int64 (timeoutSec * time.Second)) ∧
    strconv.Atoi (getEnvOrDefault env "MAX_RETRIES" "3") = some cfg.MaxRetries ∧
    cfg.LogLevel = getEnvOrDefault env "LOG_LEVEL" "info" ∧
    cfg.LogResponseBody =
      (strconv.ParseBool (getEnvOrDefault env "LOG_RESPONSE_BODY" "false")).getD false := by
  unfold Load at h
  split at h
  · cases h
  · rename_i hd
    simp only at h
    split at h
    · cases h
    · rename_i hu
      split at h
      · cases h
      · rename_i hl
        split at h
        · cases h
        · rename_i i hi
          split at h
          · cases h
          · rename_i t ht
            split at h
            · cases h
            · rename_i r hr
              cases h
              refine ⟨hd, hu, rfl, ?_, ⟨i, hi, rfl⟩, ⟨t, ht, rfl⟩, hr, rfl, ?_⟩
              · intro hnil; apply hl; exact congrArg List.length hnil
              · cases strconv.ParseBool (getEnvOrDefault env "LOG_RESPONSE_BODY" "false") <;> rfl

/-- C10. When `Load` succeeds, `PingURLs` is not empty and is exactly the list
of the comma-separated entries of `PING_URLS`, each trimmed of white space, the
empty ones dropped, in their order; and each of `PING_INTERVAL`,
`REQUEST_TIMEOUT`, `MAX_RETRIES`, `LOG_RESPONSE_BODY` that is unset or empty has
its default: 60s, 10s, 3, false.  `Load` fails when `PING_URLS` is unset or has
no such entry. -/
theorem C10_load_settings (env : Env) :
    (∀ cfg, Load env = .ok cfg →
      cfg.PingURLs ≠ [] ∧
      cfg.PingURLs = specURLs (env.getenv "PING_URLS") ∧
      (env.getenv "PING_INTERVAL" = "" → cfg.PingInterval = 60 * time.Second) ∧
      (env.getenv "REQUEST_TIMEOUT" = "" → cfg.RequestTimeout = 10 * time.Second) ∧
      (env.getenv "MAX_RETRIES" = "" → cfg.MaxRetries = 3) ∧
      (env.getenv "LOG_RESPONSE_BODY" = "" → cfg.LogResponseBody = false)) ∧
    (specURLs (env.getenv "PING_URLS") = [] → ∃ e, Load env = .error e) := by
  have main : ∀ cfg, Load env = .ok cfg →
      cfg.PingURLs ≠ [] ∧
      cfg.PingURLs = specURLs (env.getenv "PING_URLS") ∧
      (env.getenv "PING_INTERVAL" = "" → cfg.PingInterval = 60 * time.Second) ∧
      (env.getenv "REQUEST_TIMEOUT" = "" → cfg.RequestTimeout = 10 * time.Second) ∧
      (env.getenv "MAX_RETRIES" = "" → cfg.MaxRetries = 3) ∧
      (env.getenv "LOG_RESPONSE_BODY" = "" → cfg.LogResponseBody = false) := by
    intro cfg h
    obtain ⟨_, _, hurls, hne, ⟨i, hi, hi'⟩, ⟨t, ht, ht'⟩, hr, _, hb⟩ := Load_ok env cfg h
    refine ⟨hne, ?_, ?_, ?_, ?_, ?_⟩
    · rw [hurls, cleanURLs_eq]; rfl
    · intro he
      rw [getEnvOrDefault_of_empty env _ _ he, Atoi_60] at hi
      rw [hi', ← Option.some.inj hi]
      decide
    · intro he
      rw [getEnvOrDefault_of_empty env _ _ he, Atoi_10] at ht
      rw [ht', ← Option.some.inj ht]
      decide
    · intro he
      rw [getEnvOrDefault_of_empty env _ _ he, Atoi_3] at hr
      exact (Option.some.inj hr).symm
    · intro he
      rw [getEnvOrDefault_of_empty env _ _ he, ParseBool_false] at hb
      exact hb
  refine ⟨main, fun hnil => ?_⟩
  cases hL : Load env with
  | error e => exact ⟨e, rfl⟩
  | ok cfg =>
    obtain ⟨hne, heq, _⟩ := main cfg hL
    exact absurd (heq.trans hnil) hne

/-- Witness of C10: only `PING_URLS` is set, with blanks and empty entries. -/
theorem C10_load_settings_witness :
    Load fixtures.onlyURLs =
      .ok (Config.mk ["http://a/ok", "http://b/fail"] (60 * time.Second) (10 * time.Second)
        3 "info" false) ∧
    specURLs (fixtures.onlyURLs.getenv "PING_URLS") = ["http://a/ok", "http://b/fail"] ∧
    (Config.mk ["http://a/ok", "http://b/fail"] (60 * time.Second) (10 * time.Second)
        3 "info" false).PingURLs = specURLs (fixtures.onlyURLs.getenv "PING_URLS") :=
  ⟨by decide, by decide,
   ((C10_load_settings fixtures.onlyURLs).1
      (Config.mk ["http://a/ok", "http://b/fail"] (60 * time.Second) (10 * time.Second)
        3 "info" false) (by decide)).2.1⟩

end config

/-! ## The cycle `pingAll` -/

namespace pinger

theorem cycleBegin_inv (p : Pinger) : CycleInv p p.cycleBegin := by
  constructor <;> simp [Pinger.cycleBegin, urlsOf]

theorem urlsOf_append (a b : List PingResult) : urlsOf (a ++ b) = urlsOf a ++ urlsOf b := by
  simp [urlsOf]

theorem logResult_length (p : Pinger) (r : PingResult) : (p.logResult r).length = 1 := by
  unfold Pinger.logResult
  split <;> rfl

theorem cycleMove_inv (p : Pinger) (s : CycleState) (m : Move)
    (h : CycleInv p s) (hen : s.enabled m = true) : CycleInv p (p.cycleMove s m) := by
  obtain ⟨hcount, hlen, hout, hcalls, hent, hwg, hcap, hnp, hcl, hci, hcw, hret⟩ := h
  cases m with
  | launch =>
    simp only [CycleState.enabled, Bool.and_eq_true, Bool.not_eq_true', List.isEmpty_eq_false] at hen
    cases hl : s.toLaunch with
    | nil => simp [hl] at hen
    | cons u rest =>
      have hns : s.closer = .notStarted := by
        by_contra hc
        have := hcl hc
        rw [hl] at this
        cases this
      have hnc : s.closed = false := by
        cases hcd : s.closed with
        | false => rfl
        | true => rw [hci.1 hcd] at hns; cases hns
      simp only [Pinger.cycleMove, hl]
      refine ⟨?_, ?_, hout, hcalls, hent, ?_, hcap, hnp, ?_, hci, ?_, hret⟩
      · intro x
        have := hcount x
        rw [hl] at this
        simp only [List.count_cons] at this ⊢
        omega
      · rw [hl] at hlen
        simp only [List.length_cons] at hlen ⊢
        omega
      · simp only [List.length_cons]; omega
      · intro hc; exact absurd hns hc
      · intro hc; rw [hnc] at hc; cases hc
  | ping u net =>
    simp only [CycleState.enabled, Bool.and_eq_true, Bool.not_eq_true', decide_eq_true_eq,
      Bool.or_eq_true] at hen
    obtain ⟨⟨_, hu⟩, _⟩ := hen
    have hpos : 0 < s.running.length := List.length_pos_of_mem hu
    have hnc : s.closed = false := by
      cases hcd : s.closed with
      | false => rfl
      | true => have := hcw hcd; omega
    simp only [Pinger.cycleMove]
    rw [if_neg (by rw [hnc]; simp)]
    refine ⟨?_, ?_, ?_, ?_, hent, ?_, hcap, hnp, hcl, hci, ?_, ?_⟩
    · intro x
      have := hcount x
      have hc1 : 0 < s.running.count u := List.count_pos_iff.2 hu
      have e1 : urlsOf (s.outcomes ++ [(p.pingURL net u).1]) = urlsOf s.outcomes ++ [u] := by
        simp [urlsOf, pingURL_url]
      show s.toLaunch.count x + (s.running.erase u).count x
          + (urlsOf (s.outcomes ++ [(p.pingURL net u).1])).count x = p.urls.count x
      rw [e1, List.count_append]
      by_cases hx : x = u
      · subst hx
        rw [List.count_erase_self, List.count_singleton_self]
        omega
      · rw [List.count_erase_of_ne hx, List.count_singleton, if_neg (by simpa using Ne.symm hx)]
        omega
    · simp only [List.length_erase_of_mem hu, List.length_append, List.length_singleton]
      omega
    · rw [hout, List.append_assoc]
    · rw [hcalls, urlsOf_append]; simp [urlsOf, pingURL_url]
    · simp only [List.length_erase_of_mem hu]; omega
    · intro hc; rw [hnc] at hc; cases hc
    · intro hr
      obtain ⟨hc, _⟩ := hret hr
      rw [hnc] at hc; cases hc
  | done =>
    simp only [CycleState.enabled, Bool.and_eq_true, Bool.not_eq_true', decide_eq_true_eq] at hen
    simp only [Pinger.cycleMove]
    refine ⟨hcount, hlen, hout, hcalls, hent, ?_, hcap, hnp, hcl, hci, ?_, hret⟩
    · show s.wg - 1 = s.running.length + (s.sent - 1); omega
    · intro hc; have := hcw hc; show s.wg - 1 = 0; omega
  | startCloser =>
    simp only [CycleState.enabled, Bool.and_eq_true, Bool.not_eq_true', decide_eq_true_eq,
      List.isEmpty_iff] at hen
    obtain ⟨⟨_, hl⟩, hns⟩ := hen
    have hnc : s.closed = false := by
      cases hcd : s.closed with
      | false => rfl
      | true => rw [hci.1 hcd] at hns; cases hns
    simp only [Pinger.cycleMove]
    refine ⟨hcount, hlen, hout, hcalls, hent, hwg, hcap, hnp, fun _ => hl, ?_, hcw, hret⟩
    show s.closed = true ↔ Closer.waiting = Closer.finished
    simp [hnc]
  | close =>
    simp only [CycleState.enabled, Bool.and_eq_true, Bool.not_eq_true', decide_eq_true_eq] at hen
    obtain ⟨⟨_, hw⟩, hz⟩ := hen
    simp only [Pinger.cycleMove]
    refine ⟨hcount, hlen, hout, hcalls, hent, hwg, hcap, hnp, ?_, ?_, fun _ => hz, ?_⟩
    · intro _; exact hcl (by rw [hw]; simp)
    · simp
    · intro hr; exact ⟨rfl, (hret hr).2⟩
  | recv =>
    simp only [CycleState.enabled, Bool.and_eq_true, Bool.not_eq_true', decide_eq_true_eq,
      List.isEmpty_eq_false] at hen
    obtain ⟨⟨⟨_, hnr⟩, _⟩, hne⟩ := hen
    cases hch : s.chan with
    | nil => simp [hch] at hne
    | cons r rest =>
      simp only [Pinger.cycleMove, hch]
      refine ⟨hcount, hlen, ?_, hcalls, ?_, hwg, hcap, hnp, hcl, hci, hcw, ?_⟩
      · rw [hout, hch]; simp
      · rw [hent]; simp
      · intro hr; rw [hnr] at hr; cases hr
  | ret =>
    simp only [CycleState.enabled, Bool.and_eq_true, Bool.not_eq_true', decide_eq_true_eq,
      List.isEmpty_iff] at hen
    obtain ⟨⟨⟨_, _⟩, he⟩, hc⟩ := hen
    simp only [Pinger.cycleMove]
    exact ⟨hcount, hlen, hout, hcalls, hent, hwg, hcap, hnp, hcl, hci, hcw, fun _ => ⟨hc, he⟩⟩

theorem cycleStep_inv (p : Pinger) (s : CycleState) (m : Move) (h : CycleInv p s) :
    CycleInv p (p.cycleStep s m) := by
  unfold Pinger.cycleStep
  split
  · exact cycleMove_inv p s m h (by assumption)
  · exact h

theorem foldl_cycleStep_inv (p : Pinger) (sched : List Move) :
    ∀ s, CycleInv p s → CycleInv p (sched.foldl p.cycleStep s) := by
  induction sched with
  | nil => intro s h; exact h
  | cons m sched ih => intro s h; exact ih _ (cycleStep_inv p s m h)

theorem pingAll_inv (p : Pinger) (sched : List Move) : CycleInv p (p.pingAll sched) :=
  foldl_cycleStep_inv p sched _ (cycleBegin_inv p)

/-- No deadlock: as long as `pingAll` has not returned, some goroutine can move. -/
theorem cycle_progress (p : Pinger) (s : CycleState) (h : CycleInv p s)
    (hr : s.returned = false) : ∃ m, s.enabled m = true := by
  obtain ⟨hcount, hlen, hout, hcalls, hent, hwg, hcap, hnp, hcl, hci, hcw, hret⟩ := h
  cases hl : s.toLaunch with
  | cons u rest => exact ⟨.launch, by simp [CycleState.enabled, hnp, hl]⟩
  | nil =>
    by_cases hns : s.closer = .notStarted
    · exact ⟨.startCloser, by simp [CycleState.enabled, hnp, hl, hns]⟩
    · cases hch : s.chan with
      | cons r rest => exact ⟨.recv, by simp [CycleState.enabled, hnp, hr, hns, hch]⟩
      | nil =>
        cases hrun : s.running with
        | cons u us =>
          refine ⟨.ping u (fun _ => .doErr ""), ?_⟩
          have : s.chan.length < s.cap := by
            rw [hcap, ← hlen, hch, hrun]
            simp only [List.length_nil, List.length_cons]
            omega
          simp [CycleState.enabled, hnp, hrun, this]
        | nil =>
          by_cases hs : 0 < s.sent
          · exact ⟨.done, by simp [CycleState.enabled, hnp, hs]⟩
          · have hz : s.wg = 0 := by rw [hwg, hrun]; simp; omega
            cases hc : s.closer with
            | notStarted => exact absurd hc hns
            | waiting => exact ⟨.close, by simp [CycleState.enabled, hnp, hc, hz]⟩
            | finished =>
              exact ⟨.ret, by simp [CycleState.enabled, hnp, hr, hc, hch, hci.2 hc]⟩

/-- Every move brings the return of `pingAll` one step closer. -/
theorem cycleMove_togo (p : Pinger) (s : CycleState) (m : Move) (hen : s.enabled m = true) :
    (p.cycleMove s m).togo < s.togo := by
  cases m with
  | launch =>
    simp only [CycleState.enabled, Bool.and_eq_true, Bool.not_eq_true', List.isEmpty_eq_false] at hen
    cases hl : s.toLaunch with
    | nil => simp [hl] at hen
    | cons u rest =>
      simp only [Pinger.cycleMove, hl, CycleState.togo, List.length_cons]
      omega
  | ping u net =>
    simp only [CycleState.enabled, Bool.and_eq_true, Bool.not_eq_true', decide_eq_true_eq,
      Bool.or_eq_true] at hen
    obtain ⟨⟨_, hu⟩, _⟩ := hen
    have hpos : 0 < s.running.length := List.length_pos_of_mem hu
    simp only [Pinger.cycleMove]
    split <;>
      simp only [CycleState.togo, List.length_erase_of_mem hu, List.length_append,
        List.length_singleton] <;> omega
  | done =>
    simp only [CycleState.enabled, Bool.and_eq_true, Bool.not_eq_true', decide_eq_true_eq] at hen
    simp only [Pinger.cycleMove, CycleState.togo]
    omega
  | startCloser =>
    simp only [CycleState.enabled, Bool.and_eq_true, Bool.not_eq_true', decide_eq_true_eq,
      List.isEmpty_iff] at hen
    simp only [Pinger.cycleMove, CycleState.togo, hen.2]
    omega
  | close =>
    simp only [CycleState.enabled, Bool.and_eq_true, Bool.not_eq_true', decide_eq_true_eq] at hen
    simp only [Pinger.cycleMove, CycleState.togo, hen.1.2]
    omega
  | recv =>
    simp only [CycleState.enabled, Bool.and_eq_true, Bool.not_eq_true', decide_eq_true_eq,
      List.isEmpty_eq_false] at hen
    obtain ⟨⟨⟨_, hnr⟩, _⟩, hne⟩ := hen
    cases hch : s.chan with
    | nil => simp [hch] at hne
    | cons r rest =>
      simp only [Pinger.cycleMove, hch, CycleState.togo, List.length_cons]
      omega
  | ret =>
    simp only [CycleState.enabled, Bool.and_eq_true, Bool.not_eq_true', decide_eq_true_eq,
      List.isEmpty_iff] at hen
    obtain ⟨⟨⟨⟨_, hnr⟩, _⟩, _⟩, _⟩ := hen
    simp [Pinger.cycleMove, CycleState.togo, hnr]

theorem cycle_realizable_append (p : Pinger) (a b : List Move) :
    ∀ s : CycleState, p.realizable s (a ++ b)
      = (p.realizable s a && p.realizable (a.foldl p.cycleStep s) b) := by
  induction a with
  | nil => intro s; simp [Pinger.realizable]
  | cons m a ih =>
    intro s
    show (s.enabled m && p.realizable (p.cycleStep s m) (a ++ b)) = _
    rw [ih]
    simp only [Pinger.realizable, List.foldl_cons, Bool.and_assoc]

theorem cycleStep_of_enabled (p : Pinger) (s : CycleState) (m : Move)
    (h : s.enabled m = true) : p.cycleStep s m = p.cycleMove s m := by
  simp [Pinger.cycleStep, h]

/-- From every state of a call of `pingAll` the call can be run to its return,
by moves that can be made. -/
theorem cycle_can_return (p : Pinger) (n : Nat) :
    ∀ s, s.togo ≤ n → CycleInv p s →
      ∃ more : List Move, p.realizable s more = true ∧
        (more.foldl p.cycleStep s).returned = true := by
  induction n with
  | zero =>
    intro s hn _
    cases hr : s.returned with
    | true => exact ⟨[], rfl, hr⟩
    | false => simp [CycleState.togo, hr] at hn
  | succ n ih =>
    intro s hn h
    cases hr : s.returned with
    | true => exact ⟨[], rfl, hr⟩
    | false =>
      obtain ⟨m, hm⟩ := cycle_progress p s h hr
      have hstep := cycleStep_of_enabled p s m hm
      have hlt := cycleMove_togo p s m hm
      obtain ⟨more, hreal, hmore⟩ :=
        ih (p.cycleMove s m) (by omega) (cycleMove_inv p s m h hm)
      refine ⟨m :: more, ?_, ?_⟩
      · simp only [Pinger.realizable, hm, hstep, hreal, Bool.and_self]
      · rw [List.foldl_cons, hstep]; exact hmore

theorem pingCalls_cons (m : Move) (ms : List Move) :
    pingCalls (m :: ms) = pingCalls [m] ++ pingCalls ms := by
  cases m <;> simp [pingCalls]

theorem pingCalls_append (a b : List Move) : pingCalls (a ++ b) = pingCalls a ++ pingCalls b := by
  induction a with
  | nil => rfl
  | cons m a ih =>
    rw [List.cons_append, pingCalls_cons, ih, pingCalls_cons m a, List.append_assoc]

/-- A move adds to the results of `pingURL` the result of the call it makes, if it makes one. -/
theorem cycleMove_outcomes (p : Pinger) (s : CycleState) (m : Move) :
    (p.cycleMove s m).outcomes = s.outcomes ++ (pingCalls [m]).map p.outcome := by
  cases m with
  | launch => simp only [Pinger.cycleMove]; split <;> simp [pingCalls]
  | ping u net => simp only [Pinger.cycleMove]; split <;> simp [pingCalls, Pinger.outcome]
  | done => simp [Pinger.cycleMove, pingCalls]
  | startCloser => simp [Pinger.cycleMove, pingCalls]
  | close => simp [Pinger.cycleMove, pingCalls]
  | recv => simp only [Pinger.cycleMove]; split <;> simp [pingCalls]
  | ret => simp [Pinger.cycleMove, pingCalls]

/-- On a scheduling made of moves that can be made, the results obtained from
`pingURL` are those of the calls the scheduling asks for, in order. -/
theorem foldl_outcomes (p : Pinger) (sched : List Move) :
    ∀ s : CycleState, p.realizable s sched = true →
      (sched.foldl p.cycleStep s).outcomes = s.outcomes ++ (pingCalls sched).map p.outcome := by
  induction sched with
  | nil => intro s _; simp [pingCalls]
  | cons m ms ih =>
    intro s h
    simp only [Pinger.realizable, Bool.and_eq_true] at h
    rw [List.foldl_cons, ih _ h.2, cycleStep_of_enabled p s m h.1, cycleMove_outcomes,
      pingCalls_cons m ms, List.map_append, List.append_assoc]

theorem length_flatMap_logResult (p : Pinger) (rs : List PingResult) :
    (rs.flatMap p.logResult).length = rs.length := by
  induction rs with
  | nil => rfl
  | cons r rs ih => simp [List.flatMap_cons, logResult_length, ih]; omega

theorem urlsOf_outcomes (p : Pinger) (cs : List (String × Net)) :
    urlsOf (cs.map p.outcome) = cs.map Prod.fst := by
  induction cs with
  | nil => rfl
  | cons c cs ih =>
    simp only [urlsOf, List.map_cons, List.map_map] at ih ⊢
    rw [ih]
    simp [Pinger.outcome, pingURL_url]

/-- What a call of `pingAll` has done when it has returned, on a scheduling made
of moves that can be made. -/
theorem pingAll_returned (p : Pinger) (sched : List Move)
    (hreal : p.realizable p.cycleBegin sched = true)
    (hr : (p.pingAll sched).returned = true) :
    ((pingCalls sched).map Prod.fst).Perm p.urls ∧
    (p.pingAll sched).logged = (pingCalls sched).map p.outcome ∧
    (p.pingAll sched).chan = [] ∧
    (p.pingAll sched).entries = (pingCalls sched).flatMap (fun c => p.logResult (p.outcome c)) ∧
    (urlsOf (p.pingAll sched).logged).Perm p.urls ∧
    (p.pingAll sched).logged.length = p.urls.length ∧
    (p.pingAll sched).entries.length = p.urls.length := by
  have hout : (p.pingAll sched).outcomes = (pingCalls sched).map p.outcome := by
    have := foldl_outcomes p sched _ hreal
    simpa [Pinger.pingAll, Pinger.cycleBegin] using this
  obtain ⟨hcount, hlen, hlc, hcalls, hent, hwg, hcap, hnp, hcl, hci, hcw, hret⟩ :=
    pingAll_inv p sched
  obtain ⟨hc, hch⟩ := hret hr
  have hl : (p.pingAll sched).toLaunch = [] := hcl (by rw [hci.1 hc]; simp)
  have hrun : (p.pingAll sched).running = [] := by
    have := hcw hc
    rw [hwg] at this
    exact List.length_eq_zero.1 (by omega)
  have hlog : (p.pingAll sched).logged = (pingCalls sched).map p.outcome := by
    rw [← hout, hlc, hch, List.append_nil]
  have hperm : ((pingCalls sched).map Prod.fst).Perm p.urls := by
    rw [← urlsOf_outcomes p, ← hout, List.perm_iff_count]
    intro x
    have := hcount x
    rw [hl, hrun] at this
    simpa using this
  have hlen' : (p.pingAll sched).logged.length = p.urls.length := by
    rw [hl, hrun, hlc, hch] at hlen
    simpa using hlen
  refine ⟨hperm, hlog, hch, ?_, ?_, hlen', ?_⟩
  · rw [hent, hlog, List.flatMap_map]
  · rw [hlog, urlsOf_outcomes]; exact hperm
  · rw [hent, length_flatMap_logResult, hlen']

/-- The launching loop: every entry of `p.urls` gets its goroutine. -/
theorem run_launches (p : Pinger) (l : List String) :
    ∀ s : CycleState, CycleInv p s → s.toLaunch = l →
      p.realizable s (List.replicate l.length Move.launch) = true ∧
      ((List.replicate l.length Move.launch).foldl p.cycleStep s).toLaunch = [] ∧
      ((List.replicate l.length Move.launch).foldl p.cycleStep s).closer = s.closer ∧
      ((List.replicate l.length Move.launch).foldl p.cycleStep s).sent = s.sent ∧
      ((List.replicate l.length Move.launch).foldl p.cycleStep s).chan = s.chan ∧
      ((List.replicate l.length Move.launch).foldl p.cycleStep s).outcomes = s.outcomes ∧
      ((List.replicate l.length Move.launch).foldl p.cycleStep s).returned = s.returned := by
  induction l with
  | nil => intro s _ h; exact ⟨rfl, h, rfl, rfl, rfl, rfl, rfl⟩
  | cons u rest ih =>
    intro s hinv h
    have hen : s.enabled .launch = true := by
      simp [CycleState.enabled, hinv.notPanicked, h]
    have hstep := cycleStep_of_enabled p s .launch hen
    have hmove : p.cycleMove s .launch =
        { s with toLaunch := rest, wg := s.wg + 1, running := u :: s.running } := by
      simp only [Pinger.cycleMove, h]
    obtain ⟨h1, h2, h3, h4, h5, h6, h7⟩ :=
      ih (p.cycleMove s .launch) (cycleMove_inv p s .launch hinv hen) (by rw [hmove])
    simp only [List.length_cons, List.replicate_succ, List.foldl_cons, Pinger.realizable, hstep,
      hen, Bool.true_and]
    refine ⟨h1, h2, ?_, ?_, ?_, ?_, ?_⟩
    · rw [h3, hmove]
    · rw [h4, hmove]
    · rw [h5, hmove]
    · rw [h6, hmove]
    · rw [h7, hmove]

/-- One check completes, sends its result and is logged. -/
theorem run_check (p : Pinger) (s : CycleState) (u : String) (net : Net)
    (hinv : CycleInv p s) (hl : s.toLaunch = []) (hc : s.closer = .waiting)
    (hsent : s.sent = 0) (hch : s.chan = []) (hr : s.returned = false)
    (hu : u ∈ s.running) :
    p.realizable s [.ping u net, .done, .recv] = true ∧
    CycleInv p ([Move.ping u net, .done, .recv].foldl p.cycleStep s) ∧
    ([Move.ping u net, .done, .recv].foldl p.cycleStep s).toLaunch = [] ∧
    ([Move.ping u net, .done, .recv].foldl p.cycleStep s).closer = .waiting ∧
    ([Move.ping u net, .done, .recv].foldl p.cycleStep s).sent = 0 ∧
    ([Move.ping u net, .done, .recv].foldl p.cycleStep s).chan = [] ∧
    ([Move.ping u net, .done, .recv].foldl p.cycleStep s).returned = false ∧
    ([Move.ping u net, .done, .recv].foldl p.cycleStep s).running = s.running.erase u := by
  have hnc : s.closed = false := by
    cases hcd : s.closed with
    | false => rfl
    | true => have := hinv.closedIff.1 hcd; rw [hc] at this; cases this
  have hcap : 0 < s.cap := by
    have := hinv.len
    have hpos : 0 < s.running.length := List.length_pos_of_mem hu
    rw [hinv.cap]; omega
  -- the check completes and sends
  have hen1 : s.enabled (.ping u net) = true := by
    simp [CycleState.enabled, hinv.notPanicked, hu, hnc, hch, hcap]
  have hs1 : p.cycleStep s (.ping u net) =
      { s with running := s.running.erase u, calls := s.calls ++ [u],
               outcomes := s.outcomes ++ [(p.pingURL net u).1],
               chan := s.chan ++ [(p.pingURL net u).1], sent := s.sent + 1 } := by
    rw [cycleStep_of_enabled p s _ hen1]
    simp only [Pinger.cycleMove]
    rw [if_neg (by rw [hnc]; simp)]
  have hinv1 := cycleStep_inv p s (.ping u net) hinv
  -- the goroutine runs `wg.Done()`
  have hen2 : (p.cycleStep s (.ping u net)).enabled .done = true := by
    rw [hs1]; simp [CycleState.enabled, hinv.notPanicked]
  have hs2 : p.cycleStep (p.cycleStep s (.ping u net)) .done =
      { p.cycleStep s (.ping u net) with
          sent := (p.cycleStep s (.ping u net)).sent - 1,
          wg := (p.cycleStep s (.ping u net)).wg - 1 } := by
    rw [cycleStep_of_enabled p _ _ hen2]; rfl
  have hinv2 := cycleStep_inv p _ .done hinv1
  -- the main goroutine receives and logs
  have hen3 : (p.cycleStep (p.cycleStep s (.ping u net)) .done).enabled .recv = true := by
    rw [hs2, hs1]; simp [CycleState.enabled, hinv.notPanicked, hr, hc, hch]
  have hs3 : p.cycleStep (p.cycleStep (p.cycleStep s (.ping u net)) .done) .recv =
      { p.cycleStep (p.cycleStep s (.ping u net)) .done with
          chan := [],
          logged := s.logged ++ [(p.pingURL net u).1],
          entries := s.entries ++ p.logResult (p.pingURL net u).1 } := by
    rw [cycleStep_of_enabled p _ _ hen3]
    have hchan : (p.cycleStep (p.cycleStep s (.ping u net)) .done).chan
        = [(p.pingURL net u).1] := by rw [hs2, hs1]; simp [hch]
    simp only [Pinger.cycleMove, hchan]
    rw [hs2, hs1]
  have hinv3 := cycleStep_inv p _ .recv hinv2
  simp only [List.foldl_cons, List.foldl_nil, Pinger.realizable, hen1, hen2, hen3, Bool.and_self]
  refine ⟨trivial, hinv3, ?_, ?_, ?_, ?_, ?_, ?_⟩ <;> rw [hs3, hs2, hs1] <;> simp [hl, hc, hsent, hr]

/-- The checks complete in the given order, each logged before the next completes. -/
theorem run_checks (p : Pinger) (order : List (String × Net)) :
    ∀ s : CycleState, CycleInv p s → s.toLaunch = [] → s.closer = .waiting →
      s.sent = 0 → s.chan = [] → s.returned = false →
      (∀ x, s.running.count x = (order.map Prod.fst).count x) →
      p.realizable s (order.flatMap (fun c => [Move.ping c.1 c.2, .done, .recv])) = true ∧
      CycleInv p ((order.flatMap (fun c => [Move.ping c.1 c.2, .done, .recv])).foldl
        p.cycleStep s) ∧
      ((order.flatMap (fun c => [Move.ping c.1 c.2, .done, .recv])).foldl
        p.cycleStep s).closer = .waiting ∧
      ((order.flatMap (fun c => [Move.ping c.1 c.2, .done, .recv])).foldl
        p.cycleStep s).sent = 0 ∧
      ((order.flatMap (fun c => [Move.ping c.1 c.2, .done, .recv])).foldl
        p.cycleStep s).chan = [] ∧
      ((order.flatMap (fun c => [Move.ping c.1 c.2, .done, .recv])).foldl
        p.cycleStep s).returned = false ∧
      ((order.flatMap (fun c => [Move.ping c.1 c.2, .done, .recv])).foldl
        p.cycleStep s).running = [] := by
  induction order with
  | nil =>
    intro s hinv _ hc hsent hch hr hcount
    refine ⟨rfl, hinv, hc, hsent, hch, hr, ?_⟩
    apply List.eq_nil_iff_forall_not_mem.2
    intro x hx
    have := hcount x
    have hpos : 0 < s.running.count x := List.count_pos_iff.2 hx
    simp at this
    omega
  | cons c rest ih =>
    intro s hinv hl hc hsent hch hr hcount
    have hu : c.1 ∈ s.running := by
      apply List.count_pos_iff.1
      rw [hcount c.1]
      simp [List.count_cons]
    obtain ⟨h1, h2, h3, h4, h5, h6, h7, h8⟩ := run_check p s c.1 c.2 hinv hl hc hsent hch hr hu
    have hcount' : ∀ x, ([Move.ping c.1 c.2, .done, .recv].foldl p.cycleStep s).running.count x
        = (rest.map Prod.fst).count x := by
      intro x
      rw [h8]
      have := hcount x
      simp only [List.map_cons, List.count_cons] at this
      by_cases hx : x = c.1
      · subst hx
        rw [List.count_erase_self]
        simp at this
        omega
      · rw [List.count_erase_of_ne hx]
        have hne : (c.1 == x) = false := by simpa using Ne.symm hx
        simp [hne] at this
        exact this
    obtain ⟨k1, k2, k3, k4, k5, k6, k7⟩ := ih _ h2 h3 h4 h5 h6 h7 hcount'
    rw [List.flatMap_cons, cycle_realizable_append, List.foldl_append]
    exact ⟨by rw [h1, k1]; rfl, k2, k3, k4, k5, k6, k7⟩

/-- Every completion order of the checks is realized by its scheduling, which ends in the return of `pingAll`. -/
theorem run_completionSchedule (p : Pinger) (order : List (String × Net))
    (hperm : (order.map Prod.fst).Perm p.urls) :
    p.realizable p.cycleBegin (completionSchedule p order) = true ∧
    (p.pingAll (completionSchedule p order)).returned = true ∧
    pingCalls (completionSchedule p order) = order := by
  have hinv0 := cycleBegin_inv p
  obtain ⟨a1, a2, a3, a4, a5, a6, a7⟩ := run_launches p p.urls p.cycleBegin hinv0 rfl
  have hinv1 := foldl_cycleStep_inv p (List.replicate p.urls.length Move.launch) _ hinv0
  generalize hs1 : (List.replicate p.urls.length Move.launch).foldl p.cycleStep p.cycleBegin = s1
    at a2 a3 a4 a5 a6 a7 hinv1
  have a3' : s1.closer = .notStarted := a3
  have a4' : s1.sent = 0 := a4
  have a5' : s1.chan = [] := a5
  have a6' : s1.outcomes = [] := a6
  have a7' : s1.returned = false := a7
  -- the closing goroutine is started
  have hen2 : s1.enabled .startCloser = true := by
    simp [CycleState.enabled, hinv1.notPanicked, a2, a3']
  have hs2 : p.cycleStep s1 .startCloser = { s1 with closer := .waiting } := by
    rw [cycleStep_of_enabled p _ _ hen2]; rfl
  have hinv2 := cycleStep_inv p s1 .startCloser hinv1
  have hcount : ∀ x, (p.cycleStep s1 .startCloser).running.count x
      = (order.map Prod.fst).count x := by
    intro x
    have := hinv1.count x
    rw [a2, a6'] at this
    rw [hs2, hperm.count_eq]
    simpa [urlsOf] using this
  obtain ⟨b1, b2, b3, b4, b5, b6, b7⟩ := run_checks p order (p.cycleStep s1 .startCloser) hinv2
    (by rw [hs2]; exact a2) (by rw [hs2]) (by rw [hs2]; exact a4') (by rw [hs2]; exact a5')
    (by rw [hs2]; exact a7') hcount
  generalize hs3 : (order.flatMap (fun c => [Move.ping c.1 c.2, .done, .recv])).foldl
    p.cycleStep (p.cycleStep s1 .startCloser) = s3 at b2 b3 b4 b5 b6 b7
  -- the channel is closed and the range loop ends
  have hwg : s3.wg = 0 := by rw [b2.wg, b7, b4]; rfl
  have hen4 : s3.enabled .close = true := by
    simp [CycleState.enabled, b2.notPanicked, b3, hwg]
  have hs4 : p.cycleStep s3 .close = { s3 with closer := .finished, closed := true } := by
    rw [cycleStep_of_enabled p _ _ hen4]; rfl
  have hen5 : (p.cycleStep s3 .close).enabled .ret = true := by
    rw [hs4]; simp [CycleState.enabled, b2.notPanicked, b6, b5]
  have hs5 : p.cycleStep (p.cycleStep s3 .close) .ret =
      { p.cycleStep s3 .close with returned := true } := by
    rw [cycleStep_of_enabled p _ _ hen5]; rfl
  have e12 : (List.replicate p.urls.length Move.launch ++ [Move.startCloser]).foldl
      p.cycleStep p.cycleBegin = p.cycleStep s1 .startCloser := by
    rw [List.foldl_append, hs1]; rfl
  have e123 : (List.replicate p.urls.length Move.launch ++ [Move.startCloser]
      ++ order.flatMap (fun c => [Move.ping c.1 c.2, .done, .recv])).foldl
      p.cycleStep p.cycleBegin = s3 := by
    rw [List.foldl_append, e12, hs3]
  refine ⟨?_, ?_, ?_⟩
  · unfold completionSchedule
    rw [cycle_realizable_append, e123, cycle_realizable_append, e12, cycle_realizable_append,
      hs1, a1, b1]
    simp only [Pinger.realizable, hen2, hen4, hen5, Bool.and_self]
  · unfold Pinger.pingAll completionSchedule
    rw [List.foldl_append, e123]
    simp only [List.foldl_cons, List.foldl_nil, hs5]
  · unfold completionSchedule
    rw [pingCalls_append, pingCalls_append, pingCalls_append]
    have hl : ∀ n, pingCalls (List.replicate n Move.launch) = [] := by
      intro n
      induction n with
      | zero => rfl
      | succ n ih => rw [List.replicate_succ, pingCalls_cons, ih]; rfl
    have ho : ∀ o : List (String × Net),
        pingCalls (o.flatMap (fun c => [Move.ping c.1 c.2, .done, .recv])) = o := by
      intro o
      induction o with
      | nil => rfl
      | cons c o ih => rw [List.flatMap_cons, pingCalls_append, ih]; simp [pingCalls]
    rw [hl, ho]
    simp [pingCalls]

/-- C4. One call of `pingAll`, under every scheduling of its goroutines.  It
never sends on the closed channel; until it has returned some goroutine can
move, and every move brings the return closer.  On every scheduling made of
moves that can be made, the results logged so far followed by those waiting in
the channel are the results of the calls of `pingURL` the scheduling has asked
for, in the order the checks completed, each logged by one call of `logResult`,
and the call can be run on to its return.  When it has returned, `pingURL` has
been called exactly once per entry of `p.urls` (the called URLs are, as a
multiset, the configured ones), the channel is empty and `logResult` has been
given exactly the results of these calls, each once: `len(p.urls)` results,
whose URLs are, as a multiset, the configured URLs.  Every completion order of
the checks is realized by a scheduling, on which the results are logged in that
order; with no URL, `pingAll` returns having logged nothing. -/
theorem C4_pingAll_logs_each_outcome_once (p : Pinger) :
    (∀ sched : List Move,
      (p.pingAll sched).panicked = false ∧
      ((p.pingAll sched).returned = false → ∃ m, (p.pingAll sched).enabled m = true) ∧
      (∀ m, (p.pingAll sched).enabled m = true →
        (p.pingAll (sched ++ [m])).togo < (p.pingAll sched).togo) ∧
      (p.realizable p.cycleBegin sched = true →
        (p.pingAll sched).logged ++ (p.pingAll sched).chan = (pingCalls sched).map p.outcome ∧
        (p.pingAll sched).entries = (p.pingAll sched).logged.flatMap p.logResult ∧
        (∃ more : List Move, p.realizable p.cycleBegin (sched ++ more) = true ∧
          (p.pingAll (sched ++ more)).returned = true) ∧
        ((p.pingAll sched).returned = true →
          ((pingCalls sched).map Prod.fst).Perm p.urls ∧
          (p.pingAll sched).logged = (pingCalls sched).map p.outcome ∧
          (p.pingAll sched).chan = [] ∧
          (p.pingAll sched).entries
            = (pingCalls sched).flatMap (fun c => p.logResult (p.outcome c)) ∧
          (urlsOf (p.pingAll sched).logged).Perm p.urls ∧
          (p.pingAll sched).logged.length = p.urls.length ∧
          (p.pingAll sched).entries.length = p.urls.length))) ∧
    (∀ order : List (String × Net), (order.map Prod.fst).Perm p.urls →
      p.realizable p.cycleBegin (completionSchedule p order) = true ∧
      (p.pingAll (completionSchedule p order)).returned = true ∧
      (p.pingAll (completionSchedule p order)).logged = order.map p.outcome ∧
      (p.pingAll (completionSchedule p order)).entries
        = order.flatMap (fun c => p.logResult (p.outcome c))) ∧
    (p.urls = [] →
      (p.pingAll (completionSchedule p [])).returned = true ∧
      (p.pingAll (completionSchedule p [])).logged = [] ∧
      (p.pingAll (completionSchedule p [])).entries = []) := by
  have horder : ∀ order : List (String × Net), (order.map Prod.fst).Perm p.urls →
      p.realizable p.cycleBegin (completionSchedule p order) = true ∧
      (p.pingAll (completionSchedule p order)).returned = true ∧
      (p.pingAll (completionSchedule p order)).logged = order.map p.outcome ∧
      (p.pingAll (completionSchedule p order)).entries
        = order.flatMap (fun c => p.logResult (p.outcome c)) := by
    intro order hperm
    obtain ⟨h1, h2, h3⟩ := run_completionSchedule p order hperm
    obtain ⟨_, k2, _, k4, _⟩ := pingAll_returned p _ h1 h2
    rw [h3] at k2 k4
    exact ⟨h1, h2, k2, k4⟩
  refine ⟨fun sched => ?_, horder, fun hnil => ?_⟩
  · have hinv := pingAll_inv p sched
    refine ⟨hinv.notPanicked, cycle_progress p _ hinv, ?_, fun hreal => ⟨?_, hinv.entries, ?_, ?_⟩⟩
    · intro m hm
      have hstep : p.pingAll (sched ++ [m]) = p.cycleMove (p.pingAll sched) m := by
        unfold Pinger.pingAll
        rw [List.foldl_append]
        simp only [List.foldl_cons, List.foldl_nil, Pinger.cycleStep]
        exact if_pos hm
      rw [hstep]
      exact cycleMove_togo p _ m hm
    · have := foldl_outcomes p sched _ hreal
      rw [← hinv.outcomes]
      simpa [Pinger.pingAll, Pinger.cycleBegin] using this
    · obtain ⟨more, hmore, hret⟩ :=
        cycle_can_return p _ (p.pingAll sched) (Nat.le_refl _) hinv
      refine ⟨more, ?_, ?_⟩
      · rw [cycle_realizable_append, hreal]; exact hmore
      · unfold Pinger.pingAll at hret ⊢; rw [List.foldl_append]; exact hret
    · exact pingAll_returned p sched hreal
  · obtain ⟨_, h2, h3, h4⟩ := horder [] (by rw [hnil]; exact List.Perm.refl _)
    exact ⟨h2, h3, h4⟩

/-- Witness of C4: two targets, the check of the second one completes first. -/
theorem C4_pingAll_logs_each_outcome_once_witness :
    fixtures.twoTargets.realizable fixtures.twoTargets.cycleBegin fixtures.secondFirst = true ∧
    (fixtures.twoTargets.pingAll fixtures.secondFirst).returned = true ∧
    (fixtures.twoTargets.pingAll fixtures.secondFirst).logged
      = [(fixtures.twoTargets.pingURL fixtures.allRefused "http://b/fail").1,
         (fixtures.twoTargets.pingURL fixtures.allOK "http://a/ok").1] ∧
    (fixtures.twoTargets.pingAll fixtures.secondFirst).entries.length = 2 :=
  ⟨by decide, by decide,
   ((((C4_pingAll_logs_each_outcome_once fixtures.twoTargets).1
      fixtures.secondFirst).2.2.2 (by decide)).2.2.2 (by decide)).2.1,
   ((((C4_pingAll_logs_each_outcome_once fixtures.twoTargets).1
      fixtures.secondFirst).2.2.2 (by decide)).2.2.2 (by decide)).2.2.2.2.2.2⟩

end pinger
